import Mathlib

/-!
Verification of the succinct-index core of the qwt repository.

This file is a shallow embedding of the two core data structures:

* `DArray` (with its helper `Inventories`), the binary select index of
  `src/darray/mod.rs`;
* `RSSupportPlain` (with its helper `SuperblockPlain`), the quaternary
  rank/select support of `src/rs_qvector/rs_support_plain/mod.rs`.

The external collaborators that are not part of the repository sources under
`src/` (the bit container `BitVector`, the quaternary container `QVector`, and
the word-select primitive `select_in_word` from `utils`) are modelled from the
specification's interface descriptions; each such definition is marked
`Modelled from the spec:` in its doc comment.

Machine integers are modelled as `Nat`/`Int`; casts that can truncate keep an
explicit `% 2^w`.  A fallible computation returns an `Option`: `none` models a
panic (failed `assert!`, out-of-bounds indexing, `usize` underflow in checked
builds), and for the select queries `some none` models the not-found sentinel
`None` while `some (some p)` models `Some(p)`.
-/

set_option maxHeartbeats 4000000
set_option maxRecDepth 10000

/-- Modelled from the spec: the external bit container of section 6.1 (the
`BitVector` type is not under `src/`).  The container is represented by its
length and the ascending list of positions of its 1-bits, which determines
every operation of the interface (`len`, `get`, `get_word`, `ones`, `zeros`);
a well-formed container satisfies `BitVector.WF`. -/
structure BitVector where
  len : Nat
  ones : List Nat
deriving DecidableEq

/-- Well-formedness of the bit-container representation: the 1-bit positions
are strictly ascending and below the length. -/
def BitVector.WF (bv : BitVector) : Prop :=
  bv.ones.Chain' (· < ·) ∧ ∀ p ∈ bv.ones, p < bv.len

/-- Modelled from the spec: `get(pos)`, the bit at a position (`none` past the
end). -/
def BitVector.get (bv : BitVector) (i : Nat) : Option Bool :=
  if i < bv.len then some (bv.ones.contains i) else none

/-- Modelled from the spec: the `zeros()` iterator, ascending positions of
0-bits. -/
def BitVector.zerosL (bv : BitVector) : List Nat :=
  (List.range bv.len).filter (fun i => !(bv.ones.contains i))

/-- Number of 64-bit words backing the container. -/
def BitVector.numWords (bv : BitVector) : Nat := (bv.len + 63) / 64

/-- Modelled from the spec: `get_word(word_index)`; the bit of sequence
position `p` is bit `p % 64` of word `p / 64`, trailing bits of the last word
are zero, and reading past the last word is an out-of-bounds panic (`none`). -/
def BitVector.getWord (bv : BitVector) (w : Nat) : Option Nat :=
  if w < bv.numWords then
    some (((List.range 64).map
      (fun j => if bv.ones.contains (64 * w + j) then 2 ^ j else 0)).sum)
  else none

/-- Constant `BLOCK_SIZE = 1024` of `darray/mod.rs`. -/
def BLOCK_SIZE : Nat := 1024

/-- Constant `SUBBLOCK_SIZE = 32` of `darray/mod.rs`. -/
def SUBBLOCK_SIZE : Nat := 32

/-- Constant `MAX_IN_BLOCK_DISTACE = 1 << 16` of `darray/mod.rs` (the source's
spelling). -/
def MAX_IN_BLOCK_DISTACE : Nat := 65536

/-- The helper struct `Inventories` of `darray/mod.rs`: statistics, counters
and overflow positions for one polarity.  `block_inventory` entries are `i64`
(modelled as `Int`: all stored values are far below `2^63`, where the `as i64`
cast is exact), `subblock_inventory` entries are `u16`. -/
structure Inventories where
  n_sets : Nat
  block_inventory : List Int
  subblock_inventory : List Nat
  overflow_positions : List Nat
deriving DecidableEq

/-- Translation of `Inventories::flush_block`.  The dense branch pushes the
block's first position to `block_inventory` and one 16-bit offset for every
`SUBBLOCK_SIZE`-th buffered position (the `step_by(SUBBLOCK_SIZE)` loop, i.e.
the indices `i < curr.length` with `i % SUBBLOCK_SIZE == 0`); the `as u16`
cast keeps its `% 2^16`.  The sparse branch pushes `-(|overflow| + 1)`,
extends the overflow positions, and extends the subblock inventory with
`curr.length` copies of `u16::MAX`. -/
def Inventories.flushBlock (inv : Inventories) (curr : List Nat) : Inventories :=
  if curr.isEmpty then inv
  else if curr.getLastD 0 - curr.headD 0 < MAX_IN_BLOCK_DISTACE then
    { inv with
      block_inventory := inv.block_inventory ++ [(curr.headD 0 : Int)],
      subblock_inventory := inv.subblock_inventory ++
        ((List.range curr.length).filter (fun i => i % SUBBLOCK_SIZE == 0)).map
          (fun i => (curr.getD i 0 - curr.headD 0) % 65536) }
  else
    { inv with
      block_inventory := inv.block_inventory ++
        [-(inv.overflow_positions.length : Int) - 1],
      overflow_positions := inv.overflow_positions ++ curr,
      subblock_inventory := inv.subblock_inventory ++ List.replicate curr.length 65535 }

/-- The position loop of `Inventories::new`: push each position to the block
buffer, flush when `BLOCK_SIZE` positions are buffered (clearing the buffer),
count the position in `n_sets`, and flush the last (possibly short) block when
the positions run out.  The `Vec` push-back buffer is modelled as a cons list
in reverse push order plus its length (`Vec::len` is O(1)); a flush receives
the buffered positions in push order.  The running counters are scrutinised by
a `match` so that kernel evaluation keeps them as literals; the two `0`
branches are unreachable (both scrutinees are successors). -/
def Inventories.buildGo : Inventories → List Nat → Nat → Nat → List Nat → Inventories
  | inv, bufRev, _, nsets, [] =>
    { inv.flushBlock bufRev.reverse with n_sets := nsets }
  | inv, bufRev, bufLen, nsets, p :: rest =>
    match bufLen + 1, nsets + 1 with
    | 0, _ => inv
    | _, 0 => inv
    | bl + 1, ns + 1 =>
      if bl + 1 = BLOCK_SIZE then
        Inventories.buildGo (inv.flushBlock ((p :: bufRev).reverse)) [] 0 (ns + 1) rest
      else
        Inventories.buildGo inv (p :: bufRev) (bl + 1) (ns + 1) rest

/-- Translation of `Inventories::new`, taking the list of P-bit positions
produced by the polarity's position iterator.  `n_sets` ends up as the number
of positions scanned, exactly as the per-iteration `n_sets += 1` of the
source. -/
def Inventories.build (positions : List Nat) : Inventories :=
  Inventories.buildGo ⟨0, [], [], []⟩ [] 0 0 positions

/-- The `DArray` struct of `darray/mod.rs`.  The const generic
`SELECT0_SUPPORT` is modelled as the field `select0_support`. -/
structure DArray where
  select0_support : Bool
  bv : BitVector
  ones_inventories : Inventories
  zeroes_inventories : Option Inventories
deriving DecidableEq

/-- Translation of `DArray::new`: build the ones inventories, and the zeroes
inventories only when `SELECT0_SUPPORT` holds. -/
def DArray.new (select0Support : Bool) (bv : BitVector) : DArray :=
  ⟨select0Support, bv, Inventories.build bv.ones,
    if select0Support then some (Inventories.build bv.zerosL) else none⟩

/-- Modelled from the spec: the `_popcnt64` hardware popcount of a 64-bit
word. -/
def popcount64 (w : Nat) : Nat := (List.range 64).countP (fun j => w.testBit j)

/-- Modelled from the spec: `select_in_word(w, k)` from `utils` (not under
`src/`): the position of the `(k+1)`-th set bit of a 64-bit word; the caller
guarantees `k < popcount(w)`. -/
def selectInWord (w k : Nat) : Nat :=
  ((List.range 64).filter (fun j => w.testBit j)).getD k 0

/-- Bitwise complement of a `u64` (the `!word` of the select0 path). -/
def u64not (w : Nat) : Nat := (2 ^ 64 - 1) ^^^ w

/-- The word-scan `loop { ... }` of `DArray::select`, fuelled.  Each pass
either breaks (returning a position) or advances to the next word; fetching a
word past the end is an out-of-bounds panic (`none`).  `DArray.selectQ`
passes fuel `numWords + 1`, which the loop can never exhaust, so the fuel-out
branch (also `none`) is unreachable. -/
def scanLoop (bv : BitVector) (BIT : Bool) : Nat → Nat → Nat → Nat → Option (Option Nat)
  | 0, _, _, _ => none
  | fuel + 1, word_idx, word, reminder =>
    if reminder < popcount64 word then
      some (some (word_idx * 64 + selectInWord word reminder))
    else
      match bv.getWord (word_idx + 1) with
      | none => none
      | some w =>
        scanLoop bv BIT fuel (word_idx + 1) (if BIT then w else u64not w)
          (reminder - popcount64 word)

/-- Translation of the private generic `DArray::select`.  `none` models a
panic, `some none` the not-found sentinel, `some (some p)` the answer
`Some(p)`. -/
def DArray.selectQ (bv : BitVector) (BIT : Bool) (i : Nat) (inv : Inventories) :
    Option (Option Nat) :=
  if inv.n_sets ≤ i then some none
  else
    match inv.block_inventory.get? (i / BLOCK_SIZE) with
    | none => none
    | some block_pos =>
      if block_pos < 0 then
        match inv.overflow_positions.get? ((-block_pos - 1).toNat + i % BLOCK_SIZE) with
        | none => none
        | some p => some (some p)
      else
        match inv.subblock_inventory.get? (i / SUBBLOCK_SIZE) with
        | none => none
        | some sb =>
          let start_pos := block_pos.toNat + sb
          if i % SUBBLOCK_SIZE = 0 then some (some start_pos)
          else
            match bv.getWord (start_pos / 64) with
            | none => none
            | some w0 =>
              scanLoop bv BIT (bv.numWords + 1) (start_pos / 64)
                ((if BIT then w0 else u64not w0) &&&
                  (((2 ^ 64 - 1) <<< (start_pos % 64)) % 2 ^ 64))
                (i % SUBBLOCK_SIZE)

/-- Translation of `DArray::select1`. -/
def DArray.select1 (d : DArray) (i : Nat) : Option (Option Nat) :=
  DArray.selectQ d.bv true i d.ones_inventories

/-- Translation of `DArray::select0`: `assert!(SELECT0_SUPPORT)` fails (panic,
`none`) when the structure was built without select0 support; otherwise the
zeroes inventories are unwrapped and queried. -/
def DArray.select0 (d : DArray) (i : Nat) : Option (Option Nat) :=
  if d.select0_support then
    match d.zeroes_inventories with
    | some inv => DArray.selectQ d.bv false i inv
    | none => none
  else none

/-- A `[usize; 4]` / `[u128; 4]` array indexed by a symbol in `[0, 3]`, as
used throughout `rs_support_plain/mod.rs`.  Indexing at a symbol above 3 is a
Rust panic; the model returns the last component there, and every theorem
about symbols carries the bound `s ≤ 3`. -/
structure Quad where
  q0 : Nat
  q1 : Nat
  q2 : Nat
  q3 : Nat
deriving DecidableEq

/-- Read the component of a symbol. -/
def Quad.get (q : Quad) (s : Nat) : Nat :=
  match s with
  | 0 => q.q0
  | 1 => q.q1
  | 2 => q.q2
  | _ => q.q3

/-- Write the component of a symbol. -/
def Quad.set (q : Quad) (s v : Nat) : Quad :=
  match s with
  | 0 => { q with q0 := v }
  | 1 => { q with q1 := v }
  | 2 => { q with q2 := v }
  | _ => { q with q3 := v }

/-- The `SuperblockPlain` struct: four `u128` packed counter words, one per
symbol.  Bits 84..128 hold the 44-bit superblock counter, bits 0..84 hold
seven 12-bit block counters (block 0 is implicit). -/
structure SuperblockPlain where
  counters : Quad
deriving DecidableEq

/-- Translation of `SuperblockPlain::new`: store each superblock counter
shifted by 84 (the unrolled `for symbol in 0..4` loop); the `u128` shift keeps
its `% 2^128`. -/
def SuperblockPlain.new (sbc : Quad) : SuperblockPlain :=
  ⟨⟨(sbc.q0 <<< 84) % 2 ^ 128, (sbc.q1 <<< 84) % 2 ^ 128,
    (sbc.q2 <<< 84) % 2 ^ 128, (sbc.q3 <<< 84) % 2 ^ 128⟩⟩

/-- Translation of `SuperblockPlain::get_superblock_counter`: the `as usize`
cast of the high bits keeps its `% 2^64`. -/
def SuperblockPlain.get_superblock_counter (sb : SuperblockPlain) (symbol : Nat) : Nat :=
  (sb.counters.get symbol >>> 84) % 2 ^ 64

/-- Translation of `SuperblockPlain::set_block_counters`: a no-op for block 0,
otherwise OR each symbol's counter into the 12-bit field at offset
`(block_id - 1) * 12`.  The `assert!` preconditions (`block_id < 8`,
`counters[i] < 2^12`) are proved to hold at every construction call site
(`RSSupportPlain.new` below), so the function is modelled total. -/
def SuperblockPlain.set_block_counters (sb : SuperblockPlain) (block_id : Nat)
    (cnts : Quad) : SuperblockPlain :=
  if block_id = 0 then sb
  else
    ⟨⟨sb.counters.q0 ||| ((cnts.q0 <<< ((block_id - 1) * 12)) % 2 ^ 128),
      sb.counters.q1 ||| ((cnts.q1 <<< ((block_id - 1) * 12)) % 2 ^ 128),
      sb.counters.q2 ||| ((cnts.q2 <<< ((block_id - 1) * 12)) % 2 ^ 128),
      sb.counters.q3 ||| ((cnts.q3 <<< ((block_id - 1) * 12)) % 2 ^ 128)⟩⟩

/-- Translation of `SuperblockPlain::get_block_counter`: 0 for block 0,
otherwise the 12-bit field at offset `(block_id - 1) * 12`
(`0b111111111111 = 4095`). -/
def SuperblockPlain.get_block_counter (sb : SuperblockPlain) (symbol block_id : Nat) : Nat :=
  if block_id = 0 then 0
  else (sb.counters.get symbol >>> ((block_id - 1) * 12)) &&& 4095

/-- The scanning loop of `SuperblockPlain::block_predecessor`
(`for block_id in 1..8` with early return), iterating over the list of
remaining block ids; falling off the loop yields
`(BLOCKS_IN_SUPERBLOCK - 1, prev)`. -/
def SuperblockPlain.bpGo (target : Nat) : List Nat → Nat → Nat → Nat × Nat
  | [], _, prev => (7, prev)
  | block_id :: rest, cnt, prev =>
    if target ≤ cnt &&& 4095 then (block_id - 1, prev)
    else SuperblockPlain.bpGo target rest (cnt >>> 12) (cnt &&& 4095)

/-- Translation of `SuperblockPlain::block_predecessor`
(`List.range' 1 7 = [1, ..., 7]` is the iterator `1..8`). -/
def SuperblockPlain.block_predecessor (sb : SuperblockPlain) (symbol target : Nat) :
    Nat × Nat :=
  SuperblockPlain.bpGo target (List.range' 1 7) (sb.counters.get symbol) 0

/-- The property claimed for `block_predecessor(s, target)`: the returned
`block_id` is the largest index in `[0, 7]` whose block counter is strictly
below the target, and the returned rank is that block's counter. -/
def BlockPredSpec (sb : SuperblockPlain) (symbol target : Nat) (out : Nat × Nat) : Prop :=
  out.1 ≤ 7 ∧ sb.get_block_counter symbol out.1 < target ∧
    (∀ b, b ≤ 7 → sb.get_block_counter symbol b < target → b ≤ out.1) ∧
    out.2 = sb.get_block_counter symbol out.1

/-- A `[Vec<u32>; 4]` array indexed by a symbol in `[0, 3]` (the
`select_samples`).  Stored values are `u32` (kept below `2^32` by the explicit
mod of each push). -/
structure QuadL where
  l0 : List Nat
  l1 : List Nat
  l2 : List Nat
  l3 : List Nat
deriving DecidableEq

/-- Read the component of a symbol. -/
def QuadL.get (q : QuadL) (s : Nat) : List Nat :=
  match s with
  | 0 => q.l0
  | 1 => q.l1
  | 2 => q.l2
  | _ => q.l3

/-- Push a value onto the component of a symbol. -/
def QuadL.push (q : QuadL) (s v : Nat) : QuadL :=
  match s with
  | 0 => { q with l0 := q.l0 ++ [v] }
  | 1 => { q with l1 := q.l1 ++ [v] }
  | 2 => { q with l2 := q.l2 ++ [v] }
  | _ => { q with l3 := q.l3 ++ [v] }

/-- Constant `SELECT_NUM_SAMPLES = 1 << 13` of `rs_support_plain/mod.rs`. -/
def SELECT_NUM_SAMPLES : Nat := 8192

/-- Constant `BLOCKS_IN_SUPERBLOCK = 8` of `rs_support_plain/mod.rs`. -/
def BLOCKS_IN_SUPERBLOCK : Nat := 8

/-- The `RSSupportPlain` struct.  The const generic `B_SIZE` is passed
explicitly as `bs` to the operations, mirroring `Self::BLOCK_SIZE`. -/
structure RSSupportPlain where
  superblocks : List SuperblockPlain
  occs : Quad
  select_samples : QuadL
  n : Nat
deriving DecidableEq

/-- Update the last element of a list (`last_mut().unwrap()`); the list is
never empty at the call sites (a superblock is pushed at `i = 0` before any
block write), so the panic on `[]` is unreachable and modelled as the
identity. -/
def updateLast (f : SuperblockPlain → SuperblockPlain) :
    List SuperblockPlain → List SuperblockPlain
  | [] => []
  | [sb] => [f sb]
  | sb :: rest => sb :: updateLast f rest

/-- The mutable state of the construction loop of `RSSupportPlain::new`. -/
structure RSState where
  superblocks : List SuperblockPlain
  superblock_counters : Quad
  block_counters : Quad
  occs : Quad
  select_samples : QuadL
deriving DecidableEq

/-- One iteration (position `i`) of the construction loop of
`RSSupportPlain::new`: push a fresh superblock and reset the block counters at
superblock starts, write the block counters into the current superblock at
block starts, and for `i < qv.len()` read the symbol (`get_unchecked`),
sample the superblock index at every `SELECT_NUM_SAMPLES`-th occurrence (the
`as u32` cast keeps its `% 2^32`), and bump the three counters. -/
def RSSupportPlain.newStep (bs : Nat) (qv : List Nat) (st : RSState) (i : Nat) : RSState :=
  let st1 :=
    if i % (bs * BLOCKS_IN_SUPERBLOCK) = 0 then
      { st with
        superblocks := st.superblocks ++ [SuperblockPlain.new st.superblock_counters],
        block_counters := ⟨0, 0, 0, 0⟩ }
    else st
  let st2 :=
    if i % bs = 0 then
      { st1 with
        superblocks := updateLast
          (fun sb => sb.set_block_counters ((i / bs) % BLOCKS_IN_SUPERBLOCK)
            st1.block_counters) st1.superblocks }
    else st1
  if i < qv.length then
    let symbol := qv.getD i 0
    let st3 :=
      if st2.occs.get symbol % SELECT_NUM_SAMPLES = 0 then
        { st2 with
          select_samples := st2.select_samples.push symbol
            ((i / (bs * BLOCKS_IN_SUPERBLOCK)) % 2 ^ 32) }
      else st2
    { st3 with
      superblock_counters :=
        st3.superblock_counters.set symbol (st3.superblock_counters.get symbol + 1),
      block_counters :=
        st3.block_counters.set symbol (st3.block_counters.get symbol + 1),
      occs := st3.occs.set symbol (st3.occs.get symbol + 1) }
  else st2

/-- Sentinel pushes for one symbol's select samples after the loop: push 0 if
no sample was taken, then push `superblocks.len() as u32 - 1` (wrapping `u32`
arithmetic, kept exact by the explicit mod). -/
def sampleSentinel (l : List Nat) (len : Nat) : List Nat :=
  (if l.isEmpty then l ++ [0] else l) ++ [((len % 2 ^ 32) + (2 ^ 32 - 1)) % 2 ^ 32]

/-- Translation of `RSSupportPlain::new` on the symbol list `qv`.  The
`assert!(qv.len() < (1 << 43))` and the block-size assert are preconditions,
carried as hypotheses of every theorem below; the 64-byte-aligned allocation
is a capacity/alignment concern with no semantic content.  After the loop over
positions `0 ..= qv.len()`, the sentinel block counters are written when
`next_block_id < 8`, and the sample sentinels are pushed for each symbol. -/
def RSSupportPlain.new (bs : Nat) (qv : List Nat) : RSSupportPlain :=
  let st := (List.range (qv.length + 1)).foldl (RSSupportPlain.newStep bs qv)
    ⟨[], ⟨0, 0, 0, 0⟩, ⟨0, 0, 0, 0⟩, ⟨0, 0, 0, 0⟩, ⟨[], [], [], []⟩⟩
  let next_block_id := (qv.length / bs) % BLOCKS_IN_SUPERBLOCK + 1
  let sbs :=
    if next_block_id < BLOCKS_IN_SUPERBLOCK then
      updateLast (fun sb => sb.set_block_counters next_block_id st.block_counters)
        st.superblocks
    else st.superblocks
  ⟨sbs, st.occs,
    ⟨sampleSentinel st.select_samples.l0 sbs.length,
     sampleSentinel st.select_samples.l1 sbs.length,
     sampleSentinel st.select_samples.l2 sbs.length,
     sampleSentinel st.select_samples.l3 sbs.length⟩,
    qv.length⟩

/-- Translation of `RSSupportPlain::rank_block`: the superblock counter plus
the block counter of the block containing `i`; the `superblocks` indexing is
an out-of-bounds panic (`none`) past the end. -/
def RSSupportPlain.rank_block (r : RSSupportPlain) (bs SYMBOL i : Nat) : Option Nat :=
  match r.superblocks.get? (i / (bs * BLOCKS_IN_SUPERBLOCK)) with
  | none => none
  | some sb =>
    some (sb.get_superblock_counter SYMBOL +
      sb.get_block_counter SYMBOL ((i / bs) % 8))

/-- One of the two `while` searches of `RSSupportPlain::select_block` (the
galloping loop with `step`, and the linear loop with step 1): advance `lo`
while it is below `hi` and the superblock counter is still below `i`, and
return the final `lo`.  Superblock indexing out of bounds is a panic
(`none`).  The fuel bounds the iteration count; the callers pass
`last_sblock_id + 1`, which the loop cannot exhaust since every pass adds
`step ≥ 1` to `lo`. -/
def RSSupportPlain.searchGo (sbs : List SuperblockPlain) (symbol i step : Nat) :
    Nat → Nat → Nat → Option Nat
  | 0, _, _ => none
  | fuel + 1, lo, hi =>
    if lo < hi then
      match sbs.get? lo with
      | none => none
      | some sb =>
        if i ≤ sb.get_superblock_counter symbol then some lo
        else RSSupportPlain.searchGo sbs symbol i step fuel (lo + step) hi
    else some lo

/-- The integer square root `⌊√n⌋` (count of `k ∈ [0, n]` with `k² ≤ n`,
minus one for `k = 0`), written as a structural computation. -/
def sqrtI (n : Nat) : Nat := (List.range (n + 1)).countP (fun k => k * k ≤ n) - 1

/-- Translation of `RSSupportPlain::select_block`.  `none` models a panic:
an out-of-bounds `select_samples` or `superblocks` index, or a `usize`
underflow of `first_sblock_id -= step`, `first_sblock_id -= 1`, or
`i - rank`.  The step `f64::sqrt(range) as usize` equals `sqrtI range`
(the truncated real square root) exactly: the range is at most the
superblock count `< 2^32`, far below the first point (`2^52`) where rounding
the `f64` square root can change the truncated integer part. -/
def RSSupportPlain.select_block (r : RSSupportPlain) (bs symbol i : Nat) :
    Option (Nat × Nat) :=
  let sampled_i := (i - 1) / SELECT_NUM_SAMPLES
  match (r.select_samples.get symbol).get? sampled_i with
  | none => none
  | some first_sampled =>
    match (r.select_samples.get symbol).get? (sampled_i + 1) with
    | none => none
    | some last_sampled =>
      let last_sblock_id := 1 + last_sampled
      let step := sqrtI (last_sblock_id - first_sampled) + 1
      match RSSupportPlain.searchGo r.superblocks symbol i step (last_sblock_id + 1)
          first_sampled last_sblock_id with
      | none => none
      | some lo1 =>
        if lo1 < step then none
        else
          match RSSupportPlain.searchGo r.superblocks symbol i 1 (last_sblock_id + 1)
              (lo1 - step) last_sblock_id with
          | none => none
          | some lo2 =>
            if lo2 < 1 then none
            else
              match r.superblocks.get? (lo2 - 1) with
              | none => none
              | some sb =>
                let position := (lo2 - 1) * bs * BLOCKS_IN_SUPERBLOCK
                let rank := sb.get_superblock_counter symbol
                if i < rank then none
                else
                  let pr := sb.block_predecessor symbol (i - rank)
                  some (position + pr.1 * bs, rank + pr.2)

/-- Translation of `RSSupportPlain::n_occs`. -/
def RSSupportPlain.n_occs (r : RSSupportPlain) (symbol : Nat) : Nat :=
  r.occs.get symbol

/-- Translation of `RSSupportPlain::len`. -/
def RSSupportPlain.len (r : RSSupportPlain) : Nat := r.n

/-- Concrete input: 1025 ones at positions 0..1022, 65536, 65537 (length
65538).  The first block of 1024 ones spans 65536 positions, so it is flushed
sparse; the remaining one `65537` forms a second, dense block. -/
def bvSparseThenDense : BitVector := ⟨65538, List.range 1023 ++ [65536, 65537]⟩

/-- The DArray built on `bvSparseThenDense`. -/
def dSparseThenDense : DArray := DArray.new false bvSparseThenDense

/-- Concrete input: as `bvSparseThenDense` with one more one at 65538, so the
dense second block holds the ones 65537 and 65538. -/
def bvSparseThenDense2 : BitVector :=
  ⟨65539, List.range 1023 ++ [65536, 65537, 65538]⟩

/-- The DArray built on `bvSparseThenDense2`. -/
def dSparseThenDense2 : DArray := DArray.new false bvSparseThenDense2

/-- Concrete input: two ones at 0 and 65536 (length 65537); the single block
spans exactly `2^16` positions, so it is flushed sparse. -/
def bvSparsePair : BitVector := ⟨65537, [0, 65536]⟩

/-- Concrete input of spec scenario 8.3 (3): length 200000 with ones at 0 and
199999. -/
def bvScenario3 : BitVector := ⟨200000, [0, 199999]⟩

/-- The DArray built on `bvScenario3`. -/
def dScenario3 : DArray := DArray.new false bvScenario3

/-- Concrete input of spec scenario 8.3 (5): the quaternary sequence
`[0,1,2,3,0,1,2,3]`. -/
def qvScenario5 : List Nat := [0, 1, 2, 3, 0, 1, 2, 3]

/-- Number of occurrences of the symbol `s` among the first `j` positions of
`qv` (the reference prefix count the QRS counters are checked against). -/
def cntTo (qv : List Nat) (s j : Nat) : Nat := (qv.take j).count s

/-- The all-zero superblock record (used as the `getD` default; it is also
what a freshly pushed record looks like at the start of the sequence). -/
def sbDefault : SuperblockPlain := ⟨⟨0, 0, 0, 0⟩⟩

/-- Reference layout of one packed `u128` counter word: the 44-bit superblock
counter above bit 84 and seven 12-bit block counters `f 1 .. f 7` at offsets
`0, 12, .., 72`. -/
def encodeSB (sup : Nat) (f : Nat → Nat) : Nat :=
  sup * 2 ^ 84 + f 1 + f 2 * 2 ^ 12 + f 3 * 2 ^ 24 + f 4 * 2 ^ 36 +
    f 5 * 2 ^ 48 + f 6 * 2 ^ 60 + f 7 * 2 ^ 72

/-- Number of select samples stored for a symbol with `c` occurrences: one at
every occurrence count divisible by `SELECT_NUM_SAMPLES`. -/
def numSamples (c : Nat) : Nat := if c = 0 then 0 else (c - 1) / SELECT_NUM_SAMPLES + 1

/-- The block-counter fields of superblock `j` of the finished
`RSSupportPlain` on `qv`: field `b ∈ [1, 7]` holds the occurrences of `s` in
`[j·K, j·K + b·bs)` when that block boundary lies inside the sequence, the
occurrences of `s` in `[j·K, n)` for the one sentinel field written after the
loop (`b = n % K / bs + 1` on the last superblock), and `0` otherwise
(`K = bs · 8` is the superblock size). -/
def fieldsF (bs : Nat) (qv : List Nat) (j s : Nat) : Nat → Nat := fun b =>
  if 1 ≤ b ∧ b ≤ 7 ∧ j * (bs * 8) + b * bs ≤ qv.length then
    cntTo qv s (j * (bs * 8) + b * bs) - cntTo qv s (j * (bs * 8))
  else if 1 ≤ b ∧ b ≤ 7 ∧ j = qv.length / (bs * 8) ∧
      b = qv.length % (bs * 8) / bs + 1 then
    cntTo qv s qv.length - cntTo qv s (j * (bs * 8))
  else 0

/-- The initial state of the construction loop of `RSSupportPlain::new`. -/
def rsInit : RSState := ⟨[], ⟨0, 0, 0, 0⟩, ⟨0, 0, 0, 0⟩, ⟨0, 0, 0, 0⟩, ⟨[], [], [], []⟩⟩

/-- The construction-loop state after the iterations `i = 0 .. m-1` (so
`rsLoop bs qv (qv.length + 1)` is the state the post-processing of
`RSSupportPlain.new` starts from). -/
def rsLoop (bs : Nat) (qv : List Nat) (m : Nat) : RSState :=
  (List.range m).foldl (RSSupportPlain.newStep bs qv) rsInit

/-- The invariant of the construction loop of `RSSupportPlain::new`, holding
for the state after `m ≥ 1` iterations: the running counters are prefix
counts, the superblock list has one record per started superblock, each
record packs its superblock count and the block counts written so far, and
the select samples record the superblock of every
`SELECT_NUM_SAMPLES`-aligned occurrence. -/
structure RSInv (bs : Nat) (qv : List Nat) (m : Nat) (st : RSState) : Prop where
  occs_eq : ∀ s, s < 4 → st.occs.get s = cntTo qv s (min m qv.length)
  sbc_eq : st.superblock_counters = st.occs
  len_eq : st.superblocks.length = (m - 1) / (bs * 8) + 1
  bc_eq : ∀ s, s < 4 → st.block_counters.get s
      = cntTo qv s (min m qv.length) - cntTo qv s ((m - 1) / (bs * 8) * (bs * 8))
  sb_eq : ∀ j, j < st.superblocks.length → ∀ s, s < 4 →
      (st.superblocks.getD j sbDefault).counters.get s
        = encodeSB (cntTo qv s (j * (bs * 8)))
            (fun b => if 1 ≤ b ∧ b ≤ 7 ∧ j * (bs * 8) + b * bs ≤ m - 1
              then cntTo qv s (j * (bs * 8) + b * bs) - cntTo qv s (j * (bs * 8)) else 0)
  samples_len : ∀ s, s < 4 → (st.select_samples.get s).length
      = numSamples (cntTo qv s (min m qv.length))
  samples_val : ∀ s, s < 4 → ∀ jj, jj < (st.select_samples.get s).length →
      ∃ p, p < min m qv.length ∧ qv.getD p 4 = s ∧
        cntTo qv s p = jj * SELECT_NUM_SAMPLES ∧
        (st.select_samples.get s).getD jj 0 = p / (bs * 8)

/-!
Theorems.  Claim statuses are recorded in `RESULTS.json`; each claim's theorem
carries a doc comment naming the claim.
-/

/-- C9: building with `select0` support never changes a `select1` answer: both
builds query the same bit vector with the same ones inventories. -/
theorem claim_C9_select1_independent_of_select0_support (bv : BitVector) (i : Nat) :
    DArray.select1 (DArray.new true bv) i = DArray.select1 (DArray.new false bv) i := rfl

/-- C8: `select0` on a DArray built without select0 support fails the
`assert!(SELECT0_SUPPORT)` precondition (a panic, modelled `none`); built with
support, `select0` is the checked select over the zeros inventory. -/
theorem claim_C8_select0_support (bv : BitVector) (i : Nat) :
    DArray.select0 (DArray.new false bv) i = none ∧
    DArray.select0 (DArray.new true bv) i =
      DArray.selectQ bv false i (Inventories.build bv.zerosL) :=
  ⟨rfl, rfl⟩

/-- C1 (code bug): on the bit vector with ones at 0..1022, 65536, 65537, the
checked `select1(1024)` answers `Some(131072)`, but the 1025-th one-bit sits
at position 65537.  The sparse first block pushed 1024 sentinel entries into
the subblock inventory (one per buffered position instead of one per
32-position subblock), so the dense second block reads a sentinel `0xFFFF` as
its subblock offset. -/
theorem claim_C1_select1_wrong_after_sparse_block :
    1024 < dSparseThenDense.ones_inventories.n_sets ∧
    dSparseThenDense.select1 1024 = some (some 131072) ∧
    bvSparseThenDense.ones.getD 1024 0 = 65537 ∧
    dSparseThenDense.select1 1024 ≠ some (some 65537) := by decide

/-- C3 (code bug): for the bit vector with ones at 0 and 65536 the single
block is sparse (`block_inventory = [-1]`), and the code extends the subblock
inventory with `curr_positions.len() = 2` sentinel copies, not the claimed one
entry per `SUBBLOCK_SIZE = 32` P-bits (`ceil(2/32) = 1`). -/
theorem claim_C3_sparse_subblock_entry_count :
    (Inventories.build bvSparsePair.ones).block_inventory = [-1] ∧
    (Inventories.build bvSparsePair.ones).subblock_inventory = [65535, 65535] ∧
    (Inventories.build bvSparsePair.ones).subblock_inventory.length ≠
      (bvSparsePair.ones.length + SUBBLOCK_SIZE - 1) / SUBBLOCK_SIZE := by decide

/-- C7 (code bug): on the bit vector with ones at 0..1022, 65536, 65537,
65538, the index 1025 is strictly below `n_sets = 1026`, yet the checked
`select1(1025)` does not return `Some`: the dense path reads the sentinel
subblock offset left by the sparse first block, computes the start position
131072, and panics reading word 2048 of a 1025-word bit vector (modelled
`none`, which is also distinct from the not-found sentinel `some none`). -/
theorem claim_C7_select1_panics_below_n_sets :
    1025 < dSparseThenDense2.ones_inventories.n_sets ∧
    dSparseThenDense2.select1 1025 = none ∧
    dSparseThenDense2.select1 1025 ≠ some none := by decide
/-- C5: on every DArray, a checked `select1(i)` whose block inventory entry is
negative (a sparse block, stored as `-position_index - 1`) answers directly
from `overflow_positions[(-bp - 1) + i % BLOCK_SIZE]` (an out-of-bounds read
is a panic, `none`); on the spec's scenario with ones at 0 and 199999 the
single block is sparse and both stored positions are returned exactly. -/
theorem claim_C5_sparse_block_roundtrip :
    (∀ (bv : BitVector) (i : Nat) (bp : Int),
      i < (DArray.new false bv).ones_inventories.n_sets →
      (DArray.new false bv).ones_inventories.block_inventory.get? (i / BLOCK_SIZE) = some bp →
      bp < 0 →
      (DArray.new false bv).select1 i =
        ((DArray.new false bv).ones_inventories.overflow_positions.get?
          ((-bp - 1).toNat + i % BLOCK_SIZE)).map some) ∧
    dScenario3.ones_inventories.block_inventory = [-1] ∧
    dScenario3.ones_inventories.overflow_positions = [0, 199999] ∧
    dScenario3.select1 0 = some (some 0) ∧
    dScenario3.select1 1 = some (some 199999) := by
  refine ⟨?_, by decide, by decide, by decide, by decide⟩
  intro bv i bp h1 h2 h3
  unfold DArray.select1 DArray.selectQ
  rw [if_neg (Nat.not_le.mpr h1)]
  rw [h2]
  simp only [if_pos h3]
  cases ((DArray.new false bv).ones_inventories.overflow_positions.get?
      ((-bp - 1).toNat + i % BLOCK_SIZE)) <;> rfl

theorem bpGo_spec (sb : SuperblockPlain) (symbol target : Nat)
    (hmono : ∀ b1, b1 ≤ 7 → ∀ b2, b2 ≤ 7 → b1 ≤ b2 →
      sb.get_block_counter symbol b1 ≤ sb.get_block_counter symbol b2) :
    ∀ (rem block_id : Nat), block_id + rem = 8 → 1 ≤ block_id →
      (∀ b, b < block_id → sb.get_block_counter symbol b < target) →
      BlockPredSpec sb symbol target
        (SuperblockPlain.bpGo target (List.range' block_id rem)
          (sb.counters.get symbol >>> (12 * (block_id - 1)))
          (sb.get_block_counter symbol (block_id - 1))) := by
  intro rem
  induction rem with
  | zero =>
    intro block_id hk h1 hbelow
    have hb8 : block_id = 8 := by omega
    subst hb8
    simp only [List.range'_zero, SuperblockPlain.bpGo]
    exact ⟨by omega, hbelow 7 (by omega), fun b hb _ => hb, by norm_num⟩
  | succ rem ih =>
    intro block_id hk h1 hbelow
    have hlt : block_id < 8 := by omega
    have hcurr : (sb.counters.get symbol >>> (12 * (block_id - 1))) &&& 4095
        = sb.get_block_counter symbol block_id := by
      unfold SuperblockPlain.get_block_counter
      rw [if_neg (by omega), Nat.mul_comm]
    rw [List.range'_succ]
    simp only [SuperblockPlain.bpGo]
    by_cases hge : target ≤ (sb.counters.get symbol >>> (12 * (block_id - 1))) &&& 4095
    · rw [if_pos hge]
      rw [hcurr] at hge
      refine ⟨by omega, hbelow _ (by omega), ?_, rfl⟩
      intro b hb7 hcount
      by_contra hgt
      have hble : block_id ≤ b := by omega
      have := hmono block_id (by omega) b hb7 hble
      omega
    · rw [if_neg hge]
      rw [hcurr] at hge
      have hstep : (sb.counters.get symbol >>> (12 * (block_id - 1))) >>> 12
          = sb.counters.get symbol >>> (12 * (block_id + 1 - 1)) := by
        rw [← Nat.shiftRight_add]
        congr 1
        omega
      rw [hstep, hcurr]
      have hnext : sb.get_block_counter symbol block_id
          = sb.get_block_counter symbol (block_id + 1 - 1) := by norm_num
      rw [hnext]
      exact ih (block_id + 1) (by omega) (by omega)
        (fun b hb => by
          rcases Nat.lt_or_ge b block_id with h | h
          · exact hbelow b h
          · have hb2 : b = block_id := by omega
            subst hb2
            omega)

/-- C6 (counterexample to the claim as stated): for the record with packed
counters 5 for symbol 0 (block 1 counter 5, blocks 2..7 counter 0) and target
3, the scan stops at block 0 with rank 0, although block 7 also has counter
below 3, so the returned block id is not the largest qualifying index. -/
theorem claim_C6_counterexample :
    ¬ BlockPredSpec ⟨⟨5, 0, 0, 0⟩⟩ 0 3
      (SuperblockPlain.block_predecessor ⟨⟨5, 0, 0, 0⟩⟩ 0 3) := by
  unfold BlockPredSpec
  decide

/-- C6 (amended): for every record whose block counters are non-decreasing in
the block id (as construction guarantees) and every target `≥ 1`,
`block_predecessor(s, target)` returns the largest `block_id ≤ 7` whose
counter is strictly below the target, together with that counter. -/
theorem claim_C6_block_predecessor (sb : SuperblockPlain) (symbol target : Nat)
    (hmono : ∀ b1, b1 ≤ 7 → ∀ b2, b2 ≤ 7 → b1 ≤ b2 →
      sb.get_block_counter symbol b1 ≤ sb.get_block_counter symbol b2)
    (ht : 1 ≤ target) :
    BlockPredSpec sb symbol target (sb.block_predecessor symbol target) := by
  have h := bpGo_spec sb symbol target hmono 7 1 (by omega) (by omega)
    (fun b hb => by
      interval_cases b
      simp [SuperblockPlain.get_block_counter]
      omega)
  simpa [SuperblockPlain.block_predecessor, SuperblockPlain.get_block_counter,
    Nat.shiftRight_zero] using h

theorem claim_C6_witness :
    (∀ b1, b1 ≤ 7 → ∀ b2, b2 ≤ 7 → b1 ≤ b2 →
      SuperblockPlain.get_block_counter ⟨⟨0, 0, 0, 0⟩⟩ 0 b1 ≤
        SuperblockPlain.get_block_counter ⟨⟨0, 0, 0, 0⟩⟩ 0 b2) ∧ 1 ≤ 1 ∧
    BlockPredSpec ⟨⟨0, 0, 0, 0⟩⟩ 0 1
      (SuperblockPlain.block_predecessor ⟨⟨0, 0, 0, 0⟩⟩ 0 1) :=
  ⟨by decide, by decide,
    claim_C6_block_predecessor ⟨⟨0, 0, 0, 0⟩⟩ 0 1 (by decide) (by decide)⟩
theorem cntTo_zero (qv : List Nat) (s : Nat) : cntTo qv s 0 = 0 := rfl

theorem cntTo_succ (qv : List Nat) (s j : Nat) (hj : j < qv.length) :
    cntTo qv s (j + 1) = cntTo qv s j + (if qv.getD j 4 = s then 1 else 0) := by
  unfold cntTo
  rw [List.take_succ, List.count_append]
  congr 1
  rw [List.getElem?_eq_getElem hj, List.getD_eq_getElem qv 4 hj]
  by_cases h : qv[j] = s
  · simp [h]
  · simp [List.count_cons, h]

theorem cntTo_mono (qv : List Nat) (s : Nat) {a b : Nat} (h : a ≤ b) :
    cntTo qv s a ≤ cntTo qv s b :=
  (List.take_prefix_take_left qv h).count_le s

theorem cntTo_stable (qv : List Nat) (s : Nat) {j : Nat} (hj : qv.length ≤ j) :
    cntTo qv s j = cntTo qv s qv.length := by
  unfold cntTo
  rw [List.take_of_length_le hj, List.take_of_length_le (le_refl _)]

theorem cntTo_split (qv : List Nat) (s : Nat) {a b : Nat} (h : a ≤ b) :
    cntTo qv s b = cntTo qv s a + ((qv.take b).drop a).count s := by
  unfold cntTo
  conv_lhs => rw [← List.take_append_drop a (qv.take b)]
  rw [List.count_append, List.take_take, min_eq_left h]

theorem cntTo_seg_le (qv : List Nat) (s : Nat) {a b : Nat} (h : a ≤ b) :
    cntTo qv s b - cntTo qv s a ≤ b - a := by
  have hs := cntTo_split qv s h
  have hl : ((qv.take b).drop a).count s ≤ b - a := by
    calc ((qv.take b).drop a).count s ≤ ((qv.take b).drop a).length :=
          List.count_le_length s _
    _ = (qv.take b).length - a := List.length_drop a _
    _ ≤ b - a := by
        have := List.length_take_le b qv
        omega
  omega

theorem cntTo_le_self (qv : List Nat) (s j : Nat) : cntTo qv s j ≤ j := by
  have := cntTo_seg_le qv s (Nat.zero_le j)
  simpa [cntTo_zero] using this

theorem exists_occ (qv : List Nat) (s k : Nat) (hk : k < cntTo qv s qv.length) :
    ∃ p, p < qv.length ∧ qv.getD p 4 = s ∧ cntTo qv s p = k := by
  have hex : ∃ j, k < cntTo qv s j := ⟨qv.length, hk⟩
  have hspec := Nat.find_spec hex
  have hne : Nat.find hex ≠ 0 := by
    intro h0
    rw [h0] at hspec
    simp [cntTo_zero] at hspec
  obtain ⟨j0, hj0⟩ : ∃ j0, Nat.find hex = j0 + 1 := ⟨Nat.find hex - 1, by omega⟩
  have hmin : ¬ k < cntTo qv s j0 := Nat.find_min hex (by omega)
  rw [hj0] at hspec
  have hlt : j0 < qv.length := by
    by_contra hge
    push_neg at hge
    have h1 : cntTo qv s (j0 + 1) = cntTo qv s qv.length := cntTo_stable qv s (by omega)
    have h2 : cntTo qv s j0 = cntTo qv s qv.length := cntTo_stable qv s hge
    omega
  have hsucc := cntTo_succ qv s j0 hlt
  by_cases hocc : qv.getD j0 4 = s
  · rw [if_pos hocc] at hsucc
    exact ⟨j0, hlt, hocc, by omega⟩
  · rw [if_neg hocc] at hsucc
    omega

theorem cntTo_occ_succ (qv : List Nat) (s p : Nat) (hp : p < qv.length)
    (hs : qv.getD p 4 = s) : cntTo qv s (p + 1) = cntTo qv s p + 1 := by
  rw [cntTo_succ qv s p hp, if_pos hs]

theorem lor_shift_insert (hi lo v k j : Nat) (hlo : lo < 2 ^ k) (hv : v < 2 ^ j) :
    (2 ^ (k + j) * hi + lo) ||| (2 ^ k * v) = 2 ^ (k + j) * hi + 2 ^ k * v + lo := by
  have hvlo : 2 ^ k * v + lo < 2 ^ (k + j) := by
    calc 2 ^ k * v + lo < 2 ^ k * v + 2 ^ k := Nat.add_lt_add_left hlo _
    _ = 2 ^ k * (v + 1) := by ring
    _ ≤ 2 ^ k * 2 ^ j := Nat.mul_le_mul_left _ hv
    _ = 2 ^ (k + j) := (pow_add 2 k j).symm
  have hlo2 : lo < 2 ^ (k + j) :=
    lt_of_lt_of_le hlo (Nat.pow_le_pow_right (by norm_num) (Nat.le_add_right k j))
  calc (2 ^ (k + j) * hi + lo) ||| (2 ^ k * v)
      = ((2 ^ (k + j) * hi) ||| lo) ||| (2 ^ k * v) := by
        rw [← Nat.mul_add_lt_is_or hlo2 hi]
    _ = (2 ^ (k + j) * hi) ||| ((2 ^ k * v) ||| lo) := by
        rw [Nat.lor_assoc, Nat.lor_comm lo _]
    _ = (2 ^ (k + j) * hi) ||| (2 ^ k * v + lo) := by
        rw [← Nat.mul_add_lt_is_or hlo v]
    _ = 2 ^ (k + j) * hi + (2 ^ k * v + lo) := (Nat.mul_add_lt_is_or hvlo hi).symm
    _ = 2 ^ (k + j) * hi + 2 ^ k * v + lo := by ring

theorem encode_insert_general (base K HI LO v : Nat) (h : base = 2 ^ (K + 12) * HI + LO)
    (hlo : LO < 2 ^ K) (hv : v < 2 ^ 12) : base ||| (v * 2 ^ K) = base + v * 2 ^ K := by
  rw [h, Nat.mul_comm v (2 ^ K), lor_shift_insert HI LO v K 12 hlo hv]
  ring

theorem encodeSB_sup (sup : Nat) (f : Nat → Nat) (hsup : sup < 2 ^ 64)
    (hf : ∀ b, f b < 4096) : (encodeSB sup f >>> 84) % 2 ^ 64 = sup := by
  have h1 := hf 1
  have h2 := hf 2
  have h3 := hf 3
  have h4 := hf 4
  have h5 := hf 5
  have h6 := hf 6
  have h7 := hf 7
  unfold encodeSB
  rw [Nat.shiftRight_eq_div_pow]
  omega

theorem encodeSB_field (sup : Nat) (f : Nat → Nat) (b : Nat) (hb1 : 1 ≤ b) (hb7 : b ≤ 7)
    (hf : ∀ i, f i < 4096) :
    (encodeSB sup f >>> ((b - 1) * 12)) &&& 4095 = f b := by
  have h1 := hf 1
  have h2 := hf 2
  have h3 := hf 3
  have h4 := hf 4
  have h5 := hf 5
  have h6 := hf 6
  have h7 := hf 7
  have hmask : (4095 : Nat) = 2 ^ 12 - 1 := by norm_num
  rw [hmask, Nat.and_pow_two_sub_one_eq_mod, Nat.shiftRight_eq_div_pow]
  unfold encodeSB
  interval_cases b <;> omega

theorem encodeSB_zero (sup : Nat) (hsup : sup < 2 ^ 44) :
    (sup <<< 84) % 2 ^ 128 = encodeSB sup (fun _ => 0) := by
  rw [Nat.shiftLeft_eq, Nat.mod_eq_of_lt (by omega)]
  simp [encodeSB]

theorem encodeSB_set (sup : Nat) (f : Nat → Nat) (b v : Nat) (hb1 : 1 ≤ b) (hb7 : b ≤ 7)
    (hf : ∀ i, f i < 4096) (hv : v < 4096) (hfb : f b = 0) :
    encodeSB sup f ||| ((v <<< ((b - 1) * 12)) % 2 ^ 128) =
      encodeSB sup (fun i => if i = b then v else f i) := by
  have h1 := hf 1
  have h2 := hf 2
  have h3 := hf 3
  have h4 := hf 4
  have h5 := hf 5
  have h6 := hf 6
  have h7 := hf 7
  have hv12 : v < 2 ^ 12 := by omega
  rw [Nat.shiftLeft_eq]
  interval_cases b
  · rw [Nat.mod_eq_of_lt (by omega), show ((1:Nat) - 1) * 12 = 0 from by norm_num]
    rw [encode_insert_general _ 0
      (sup * 2 ^ 72 + f 2 + f 3 * 2 ^ 12 + f 4 * 2 ^ 24 + f 5 * 2 ^ 36 + f 6 * 2 ^ 48 +
        f 7 * 2 ^ 60) 0 v (by simp only [encodeSB, hfb]; ring) (by norm_num) hv12]
    simp only [encodeSB]
    simp
    omega
  · rw [Nat.mod_eq_of_lt (by omega), show ((2:Nat) - 1) * 12 = 12 from by norm_num]
    rw [encode_insert_general _ 12
      (sup * 2 ^ 60 + f 3 + f 4 * 2 ^ 12 + f 5 * 2 ^ 24 + f 6 * 2 ^ 36 + f 7 * 2 ^ 48)
      (f 1) v (by simp only [encodeSB, hfb]; ring) (by omega) hv12]
    simp only [encodeSB]
    simp
    omega
  · rw [Nat.mod_eq_of_lt (by omega), show ((3:Nat) - 1) * 12 = 24 from by norm_num]
    rw [encode_insert_general _ 24
      (sup * 2 ^ 48 + f 4 + f 5 * 2 ^ 12 + f 6 * 2 ^ 24 + f 7 * 2 ^ 36)
      (f 1 + f 2 * 2 ^ 12) v (by simp only [encodeSB, hfb]; ring) (by omega) hv12]
    simp only [encodeSB]
    simp
    omega
  · rw [Nat.mod_eq_of_lt (by omega), show ((4:Nat) - 1) * 12 = 36 from by norm_num]
    rw [encode_insert_general _ 36
      (sup * 2 ^ 36 + f 5 + f 6 * 2 ^ 12 + f 7 * 2 ^ 24)
      (f 1 + f 2 * 2 ^ 12 + f 3 * 2 ^ 24) v (by simp only [encodeSB, hfb]; ring)
      (by omega) hv12]
    simp only [encodeSB]
    simp
    omega
  · rw [Nat.mod_eq_of_lt (by omega), show ((5:Nat) - 1) * 12 = 48 from by norm_num]
    rw [encode_insert_general _ 48
      (sup * 2 ^ 24 + f 6 + f 7 * 2 ^ 12)
      (f 1 + f 2 * 2 ^ 12 + f 3 * 2 ^ 24 + f 4 * 2 ^ 36) v
      (by simp only [encodeSB, hfb]; ring) (by omega) hv12]
    simp only [encodeSB]
    simp
    omega
  · rw [Nat.mod_eq_of_lt (by omega), show ((6:Nat) - 1) * 12 = 60 from by norm_num]
    rw [encode_insert_general _ 60
      (sup * 2 ^ 12 + f 7)
      (f 1 + f 2 * 2 ^ 12 + f 3 * 2 ^ 24 + f 4 * 2 ^ 36 + f 5 * 2 ^ 48) v
      (by simp only [encodeSB, hfb]; ring) (by omega) hv12]
    simp only [encodeSB]
    simp
    omega
  · rw [Nat.mod_eq_of_lt (by omega), show ((7:Nat) - 1) * 12 = 72 from by norm_num]
    rw [encode_insert_general _ 72 sup
      (f 1 + f 2 * 2 ^ 12 + f 3 * 2 ^ 24 + f 4 * 2 ^ 36 + f 5 * 2 ^ 48 + f 6 * 2 ^ 60) v
      (by simp only [encodeSB, hfb]; ring) (by omega) hv12]
    simp only [encodeSB]
    simp
    omega

theorem rsLoop_succ (bs : Nat) (qv : List Nat) (m : Nat) :
    rsLoop bs qv (m + 1) = RSSupportPlain.newStep bs qv (rsLoop bs qv m) m := by
  unfold rsLoop
  rw [List.range_succ, List.foldl_append]
  rfl

theorem updateLast_length (f : SuperblockPlain → SuperblockPlain) (l : List SuperblockPlain) :
    (updateLast f l).length = l.length := by
  induction l with
  | nil => rfl
  | cons a t ih =>
    cases t with
    | nil => rfl
    | cons b t2 =>
      simp only [updateLast, List.length_cons] at ih ⊢
      omega

theorem updateLast_getD_last (f : SuperblockPlain → SuperblockPlain) (l : List SuperblockPlain)
    (hne : l ≠ []) :
    (updateLast f l).getD (l.length - 1) sbDefault = f (l.getD (l.length - 1) sbDefault) := by
  induction l with
  | nil => exact absurd rfl hne
  | cons a t ih =>
    cases t with
    | nil => rfl
    | cons b t2 =>
      have hne2 : b :: t2 ≠ [] := by simp
      have := ih hne2
      simp only [updateLast, List.length_cons] at this ⊢
      simpa using this

theorem updateLast_getD_ne (f : SuperblockPlain → SuperblockPlain) (l : List SuperblockPlain)
    (j : Nat) (hj : j ≠ l.length - 1) :
    (updateLast f l).getD j sbDefault = l.getD j sbDefault := by
  induction l generalizing j with
  | nil => rfl
  | cons a t ih =>
    cases t with
    | nil =>
      simp only [List.length_cons, List.length_nil] at hj
      cases j with
      | zero => omega
      | succ j2 => rfl
    | cons b t2 =>
      simp only [List.length_cons] at hj
      cases j with
      | zero => rfl
      | succ j2 =>
        simp only [updateLast]
        have := ih j2 (by simp only [List.length_cons]; omega)
        simpa using this

theorem set_block_counters_zero (sb : SuperblockPlain) (q : Quad) :
    sb.set_block_counters 0 q = sb := rfl

theorem updateLast_id (f : SuperblockPlain → SuperblockPlain) (l : List SuperblockPlain)
    (hf : ∀ x, f x = x) : updateLast f l = l := by
  induction l with
  | nil => rfl
  | cons a t ih =>
    cases t with
    | nil => simp [updateLast, hf]
    | cons b t2 =>
      simp only [updateLast]
      rw [ih]

theorem Quad.get_set_self (q : Quad) (s v : Nat) (hs : s < 4) : (q.set s v).get s = v := by
  interval_cases s <;> rfl

theorem Quad.get_set_ne (q : Quad) (s t v : Nat) (hs : s < 4) (ht : t < 4) (h : s ≠ t) :
    (q.set s v).get t = q.get t := by
  interval_cases s <;> interval_cases t <;> first | rfl | omega

theorem QuadL.get_push_self (q : QuadL) (s : Nat) (v : Nat) (hs : s < 4) :
    (q.push s v).get s = q.get s ++ [v] := by
  interval_cases s <;> rfl

theorem QuadL.get_push_ne (q : QuadL) (s t : Nat) (v : Nat) (hs : s < 4) (ht : t < 4)
    (h : s ≠ t) : (q.push s v).get t = q.get t := by
  interval_cases s <;> interval_cases t <;> first | rfl | omega

theorem Quad.get_zero : ∀ s : Nat, Quad.get ⟨0, 0, 0, 0⟩ s = 0
  | 0 => rfl
  | 1 => rfl
  | 2 => rfl
  | 3 => rfl
  | _ + 4 => rfl

theorem QuadL.get_empty : ∀ s : Nat, QuadL.get ⟨[], [], [], []⟩ s = []
  | 0 => rfl
  | 1 => rfl
  | 2 => rfl
  | 3 => rfl
  | _ + 4 => rfl

theorem sb_new_zero : SuperblockPlain.new ⟨0, 0, 0, 0⟩ = sbDefault := by decide

theorem getD_mem (qv : List Nat) (j : Nat) (hj : j < qv.length) (d : Nat) :
    qv.getD j d ∈ qv := by
  rw [List.getD_eq_getElem qv d hj]
  exact List.getElem_mem hj

theorem getD_default_eq (qv : List Nat) (j : Nat) (hj : j < qv.length) (d e : Nat) :
    qv.getD j d = qv.getD j e := by
  rw [List.getD_eq_getElem qv d hj, List.getD_eq_getElem qv e hj]

theorem cntTo_one_of_head (qv : List Nat) (s : Nat) (hq : 0 < qv.length) :
    cntTo qv s 1 = if qv.getD 0 4 = s then 1 else 0 := by
  have h := cntTo_succ qv s 0 hq
  rw [cntTo_zero, show (0:Nat) + 1 = 1 from rfl, Nat.zero_add] at h
  exact h

theorem rsInv_base (bs : Nat) (qv : List Nat) (hbs : bs = 256 ∨ bs = 512)
    (hn : qv.length < 2 ^ 43) (hwf : ∀ x ∈ qv, x < 4) :
    RSInv bs qv 1 (rsLoop bs qv 1) := by
  have hbs0 : 0 < bs := by rcases hbs with rfl | rfl <;> norm_num
  have hz1 : (0 : Nat) % (bs * BLOCKS_IN_SUPERBLOCK) = 0 := Nat.zero_mod _
  have hz2 : (0 : Nat) % bs = 0 := Nat.zero_mod _
  have hz3 : ((0 : Nat) / bs) % BLOCKS_IN_SUPERBLOCK = 0 := by
    rw [Nat.zero_div, Nat.zero_mod]
  have hzz : (1 - 1) / (bs * 8) * (bs * 8) = 0 := by simp
  have hsb0 : ∀ j, j < 1 → ∀ s, s < 4 →
      ([SuperblockPlain.new ⟨(0:Nat), 0, 0, 0⟩].getD j sbDefault).counters.get s
        = encodeSB (cntTo qv s (j * (bs * 8)))
            (fun b => if 1 ≤ b ∧ b ≤ 7 ∧ j * (bs * 8) + b * bs ≤ 1 - 1
              then cntTo qv s (j * (bs * 8) + b * bs) - cntTo qv s (j * (bs * 8)) else 0) := by
    intro j hj s hs
    interval_cases j
    rw [sb_new_zero]
    have hfields : (fun b => if 1 ≤ b ∧ b ≤ 7 ∧ 0 * (bs * 8) + b * bs ≤ 1 - 1
        then cntTo qv s (0 * (bs * 8) + b * bs) - cntTo qv s (0 * (bs * 8)) else 0)
        = (fun _ => 0) := by
      funext b
      rw [if_neg]
      rintro ⟨hb1, _, hble⟩
      have : bs ≤ b * bs := Nat.le_mul_of_pos_left bs hb1
      omega
    rw [hfields]
    show Quad.get ⟨0, 0, 0, 0⟩ s = encodeSB (cntTo qv s (0 * (bs * 8))) fun _ => 0
    rw [Quad.get_zero, Nat.zero_mul, cntTo_zero]
    simp [encodeSB]
  rw [rsLoop_succ]
  show RSInv bs qv 1 (RSSupportPlain.newStep bs qv rsInit 0)
  unfold RSSupportPlain.newStep
  simp only [hz1, hz2, hz3, reduceIte, rsInit]
  rw [updateLast_id _ _ (fun x => set_block_counters_zero x _)]
  by_cases hq : 0 < qv.length
  · rw [if_pos hq]
    simp only [Quad.get_zero, Nat.zero_mod, reduceIte]
    set sym := qv.getD 0 0 with hsym
    have hsym4 : sym < 4 := hwf _ (getD_mem qv 0 hq 0)
    have hsymd : qv.getD 0 4 = sym := getD_default_eq qv 0 hq 4 0
    have hcnt : ∀ s, s < 4 → cntTo qv s 1 = Quad.get (Quad.set ⟨0, 0, 0, 0⟩ sym (0 + 1)) s := by
      intro s hs
      rw [cntTo_one_of_head qv s hq, hsymd]
      by_cases hss : sym = s
      · subst hss
        rw [Quad.get_set_self _ _ _ hsym4, if_pos rfl]
      · rw [Quad.get_set_ne _ _ _ _ hsym4 hs hss, if_neg hss, Quad.get_zero]
    constructor
    · intro s hs
      rw [min_eq_left (by omega), hcnt s hs]
    · rfl
    · simp
    · intro s hs
      rw [hzz, cntTo_zero, Nat.sub_zero, min_eq_left (by omega), hcnt s hs]
    · simpa using hsb0
    · intro s hs
      rw [min_eq_left (by omega)]
      by_cases hss : sym = s
      · subst hss
        rw [QuadL.get_push_self _ _ _ hsym4, QuadL.get_empty]
        rw [cntTo_one_of_head qv sym hq, hsymd, if_pos rfl]
        simp [numSamples]
      · rw [QuadL.get_push_ne _ _ _ _ hsym4 hs hss, QuadL.get_empty]
        rw [cntTo_one_of_head qv s hq, hsymd, if_neg hss]
        simp [numSamples]
    · intro s hs jj hjj
      by_cases hss : sym = s
      · subst hss
        rw [QuadL.get_push_self _ _ _ hsym4, QuadL.get_empty] at hjj ⊢
        simp only [List.nil_append, List.length_cons, List.length_nil] at hjj
        interval_cases jj
        refine ⟨0, by omega, hsymd, by simp [cntTo_zero], ?_⟩
        simp [BLOCKS_IN_SUPERBLOCK]
      · rw [QuadL.get_push_ne _ _ _ _ hsym4 hs hss, QuadL.get_empty] at hjj
        simp at hjj
  · rw [if_neg hq]
    have hq0 : qv.length = 0 := by omega
    constructor
    · intro s hs
      rw [min_eq_right (by omega), hq0, cntTo_zero]
      exact Quad.get_zero s
    · rfl
    · simp
    · intro s hs
      rw [min_eq_right (by omega), hq0, cntTo_zero, Quad.get_zero]
      omega
    · simpa using hsb0
    · intro s hs
      rw [min_eq_right (by omega), hq0, cntTo_zero, QuadL.get_empty]
      simp [numSamples]
    · intro s hs jj hjj
      rw [QuadL.get_empty] at hjj
      simp at hjj

theorem mod_bs_zero (j b bs : Nat) : (j * (bs * 8) + b * bs) % bs = 0 := by
  have h : j * (bs * 8) + b * bs = (j * 8 + b) * bs := by ring
  rw [h, Nat.mul_mod_left]

theorem div_succ_of_dvd (k m : Nat) ( _hk : 0 < k) (h1 : 1 ≤ m) (hd : m % k = 0) :
    m / k = (m - 1) / k + 1 := by
  obtain ⟨m0, rfl⟩ : ∃ m0, m = m0 + 1 := ⟨m - 1, by omega⟩
  rw [Nat.succ_div, if_pos (Nat.dvd_of_mod_eq_zero hd)]
  simp

theorem div_succ_of_not_dvd (k m : Nat) (h1 : 1 ≤ m) (hd : m % k ≠ 0) :
    m / k = (m - 1) / k := by
  obtain ⟨m0, rfl⟩ : ∃ m0, m = m0 + 1 := ⟨m - 1, by omega⟩
  rw [Nat.succ_div, if_neg (fun hdvd => hd (Nat.mod_eq_zero_of_dvd hdvd))]
  simp

theorem fields_stable (bs : Nat) (qv : List Nat) (m j s : Nat) (h1 : 1 ≤ m)
    (hno : ∀ b, 1 ≤ b → b ≤ 7 → j * (bs * 8) + b * bs ≠ m) :
    (fun b => if 1 ≤ b ∧ b ≤ 7 ∧ j * (bs * 8) + b * bs ≤ m
      then cntTo qv s (j * (bs * 8) + b * bs) - cntTo qv s (j * (bs * 8)) else 0)
    = (fun b => if 1 ≤ b ∧ b ≤ 7 ∧ j * (bs * 8) + b * bs ≤ m - 1
      then cntTo qv s (j * (bs * 8) + b * bs) - cntTo qv s (j * (bs * 8)) else 0) := by
  funext b
  by_cases hb : 1 ≤ b ∧ b ≤ 7
  · have hne := hno b hb.1 hb.2
    by_cases hle : j * (bs * 8) + b * bs ≤ m - 1
    · rw [if_pos ⟨hb.1, hb.2, by omega⟩, if_pos ⟨hb.1, hb.2, hle⟩]
    · rw [if_neg (by omega), if_neg (by omega)]
  · rw [if_neg (by tauto), if_neg (by tauto)]

theorem sb_new_get (q : Quad) (s : Nat) (hs : s < 4) :
    (SuperblockPlain.new q).counters.get s = (q.get s <<< 84) % 2 ^ 128 := by
  interval_cases s <;> rfl

theorem set_block_counters_get (sb : SuperblockPlain) (b : Nat) (cnts : Quad) (s : Nat)
    (hb : b ≠ 0) (hs : s < 4) :
    (sb.set_block_counters b cnts).counters.get s =
      sb.counters.get s ||| ((cnts.get s <<< ((b - 1) * 12)) % 2 ^ 128) := by
  unfold SuperblockPlain.set_block_counters
  rw [if_neg hb]
  interval_cases s <;> rfl

theorem newStep_occs (bs : Nat) (qv : List Nat) (st : RSState) (m : Nat) :
    (RSSupportPlain.newStep bs qv st m).occs =
      if m < qv.length then st.occs.set (qv.getD m 0) (st.occs.get (qv.getD m 0) + 1)
      else st.occs := by
  unfold RSSupportPlain.newStep
  by_cases e1 : m % (bs * BLOCKS_IN_SUPERBLOCK) = 0 <;>
    by_cases e2 : m % bs = 0 <;>
      by_cases e3 : m < qv.length <;>
        simp [e1, e2, e3, apply_ite RSState.occs]

theorem newStep_sbc (bs : Nat) (qv : List Nat) (st : RSState) (m : Nat) :
    (RSSupportPlain.newStep bs qv st m).superblock_counters =
      if m < qv.length then
        st.superblock_counters.set (qv.getD m 0) (st.superblock_counters.get (qv.getD m 0) + 1)
      else st.superblock_counters := by
  unfold RSSupportPlain.newStep
  by_cases e1 : m % (bs * BLOCKS_IN_SUPERBLOCK) = 0 <;>
    by_cases e2 : m % bs = 0 <;>
      by_cases e3 : m < qv.length <;>
        simp [e1, e2, e3, apply_ite RSState.superblock_counters]

theorem newStep_bc (bs : Nat) (qv : List Nat) (st : RSState) (m : Nat) :
    (RSSupportPlain.newStep bs qv st m).block_counters =
      if m < qv.length then
        (if m % (bs * BLOCKS_IN_SUPERBLOCK) = 0 then (⟨0, 0, 0, 0⟩ : Quad)
          else st.block_counters).set (qv.getD m 0)
          ((if m % (bs * BLOCKS_IN_SUPERBLOCK) = 0 then (⟨0, 0, 0, 0⟩ : Quad)
            else st.block_counters).get (qv.getD m 0) + 1)
      else
        (if m % (bs * BLOCKS_IN_SUPERBLOCK) = 0 then (⟨0, 0, 0, 0⟩ : Quad)
          else st.block_counters) := by
  unfold RSSupportPlain.newStep
  by_cases e1 : m % (bs * BLOCKS_IN_SUPERBLOCK) = 0 <;>
    by_cases e2 : m % bs = 0 <;>
      by_cases e3 : m < qv.length <;>
        simp [e1, e2, e3, apply_ite RSState.block_counters]

theorem newStep_samples (bs : Nat) (qv : List Nat) (st : RSState) (m : Nat) :
    (RSSupportPlain.newStep bs qv st m).select_samples =
      if m < qv.length ∧ st.occs.get (qv.getD m 0) % SELECT_NUM_SAMPLES = 0 then
        st.select_samples.push (qv.getD m 0) (m / (bs * BLOCKS_IN_SUPERBLOCK) % 2 ^ 32)
      else st.select_samples := by
  unfold RSSupportPlain.newStep
  by_cases e1 : m % (bs * BLOCKS_IN_SUPERBLOCK) = 0 <;>
    by_cases e2 : m % bs = 0 <;>
      by_cases e3 : m < qv.length <;>
        by_cases e4 : st.occs.get (qv.getD m 0) % SELECT_NUM_SAMPLES = 0 <;>
          simp [e1, e2, e3, e4, apply_ite RSState.select_samples]

theorem newStep_superblocks (bs : Nat) (qv : List Nat) (st : RSState) (m : Nat) :
    (RSSupportPlain.newStep bs qv st m).superblocks =
      if m % bs = 0 then
        updateLast (fun sb => sb.set_block_counters (m / bs % BLOCKS_IN_SUPERBLOCK)
          (if m % (bs * BLOCKS_IN_SUPERBLOCK) = 0 then ⟨0, 0, 0, 0⟩ else st.block_counters))
          (if m % (bs * BLOCKS_IN_SUPERBLOCK) = 0 then
            st.superblocks ++ [SuperblockPlain.new st.superblock_counters]
          else st.superblocks)
      else
        (if m % (bs * BLOCKS_IN_SUPERBLOCK) = 0 then
          st.superblocks ++ [SuperblockPlain.new st.superblock_counters]
        else st.superblocks) := by
  unfold RSSupportPlain.newStep
  by_cases e1 : m % (bs * BLOCKS_IN_SUPERBLOCK) = 0 <;>
    by_cases e2 : m % bs = 0 <;>
      by_cases e3 : m < qv.length <;>
        simp [e1, e2, e3, apply_ite RSState.superblocks]

set_option linter.unusedVariables false

theorem rsInv_step (bs : Nat) (qv : List Nat) (hbs : bs = 256 ∨ bs = 512)
    (hn : qv.length < 2 ^ 43) (hwf : ∀ x ∈ qv, x < 4) (m : Nat) (h1 : 1 ≤ m)
    (hm : m ≤ qv.length) (inv : RSInv bs qv m (rsLoop bs qv m)) :
    RSInv bs qv (m + 1) (rsLoop bs qv (m + 1)) := by
  have hbs0 : 0 < bs := by rcases hbs with rfl | rfl <;> norm_num
  have hbs512 : bs ≤ 512 := by rcases hbs with rfl | rfl <;> norm_num
  have hK0 : 0 < bs * 8 := by omega
  obtain ⟨hocc, hsbc, hlen, hbc, hsb, hslen, hsval⟩ := inv
  rw [rsLoop_succ]
  set st := rsLoop bs qv m with hst
  have hminm : min m qv.length = m := min_eq_left hm
  have hocc2 : ∀ s, s < 4 → (RSSupportPlain.newStep bs qv st m).occs.get s
      = cntTo qv s (min (m + 1) qv.length) := by
    intro s hs
    rw [newStep_occs]
    by_cases hml : m < qv.length
    · rw [if_pos hml, min_eq_left (by omega)]
      have hsym4 : qv.getD m 0 < 4 := hwf _ (getD_mem qv m hml 0)
      have hsymd : qv.getD m 4 = qv.getD m 0 := getD_default_eq qv m hml 4 0
      have hsucc := cntTo_succ qv s m hml
      by_cases hss : qv.getD m 0 = s
      · rw [hss, Quad.get_set_self _ _ _ (hss ▸ hsym4), hocc s hs, hminm]
        rw [hss] at hsymd
        rw [hsymd, if_pos rfl] at hsucc
        omega
      · rw [Quad.get_set_ne _ _ _ _ hsym4 hs hss, hocc s hs, hminm]
        rw [hsymd, if_neg hss] at hsucc
        omega
    · have hmn : m = qv.length := by omega
      rw [if_neg hml, hocc s hs, hminm, min_eq_right (by omega), hmn]
  have hbc2 : ∀ s, s < 4 → (RSSupportPlain.newStep bs qv st m).block_counters.get s
      = cntTo qv s (min (m + 1) qv.length) - cntTo qv s (m / (bs * 8) * (bs * 8)) := by
    intro s hs
    rw [newStep_bc]
    simp only [BLOCKS_IN_SUPERBLOCK]
    have hqle : m / (bs * 8) * (bs * 8) ≤ m := Nat.div_mul_le_self m (bs * 8)
    have hmono := cntTo_mono qv s hqle
    by_cases e1 : m % (bs * 8) = 0
    · have hqm : m / (bs * 8) * (bs * 8) = m := Nat.div_mul_cancel (Nat.dvd_of_mod_eq_zero e1)
      simp only [if_pos e1, hqm]
      by_cases hml : m < qv.length
      · rw [if_pos hml, min_eq_left (by omega)]
        have hsym4 : qv.getD m 0 < 4 := hwf _ (getD_mem qv m hml 0)
        have hsymd : qv.getD m 4 = qv.getD m 0 := getD_default_eq qv m hml 4 0
        have hsucc := cntTo_succ qv s m hml
        by_cases hss : qv.getD m 0 = s
        · rw [hss, Quad.get_set_self _ _ _ (hss ▸ hsym4), Quad.get_zero]
          rw [hss] at hsymd
          rw [hsymd, if_pos rfl] at hsucc
          omega
        · rw [Quad.get_set_ne _ _ _ _ hsym4 hs hss, Quad.get_zero]
          rw [hsymd, if_neg hss] at hsucc
          omega
      · rw [if_neg hml, min_eq_right (by omega), Quad.get_zero]
        have hmn : m = qv.length := by omega
        rw [hmn]
        omega
    · have hqq : m / (bs * 8) = (m - 1) / (bs * 8) := div_succ_of_not_dvd (bs * 8) m h1 e1
      simp only [if_neg e1]
      by_cases hml : m < qv.length
      · rw [if_pos hml, min_eq_left (by omega)]
        have hsym4 : qv.getD m 0 < 4 := hwf _ (getD_mem qv m hml 0)
        have hsymd : qv.getD m 4 = qv.getD m 0 := getD_default_eq qv m hml 4 0
        have hsucc := cntTo_succ qv s m hml
        have hbcs := hbc s hs
        rw [hminm, ← hqq] at hbcs
        by_cases hss : qv.getD m 0 = s
        · rw [hss, Quad.get_set_self _ _ _ (hss ▸ hsym4), hbcs]
          rw [hss] at hsymd
          rw [hsymd, if_pos rfl] at hsucc
          omega
        · rw [Quad.get_set_ne _ _ _ _ hsym4 hs hss, hbcs]
          rw [hsymd, if_neg hss] at hsucc
          omega
      · rw [if_neg hml, min_eq_right (by omega)]
        have hmn : m = qv.length := by omega
        have hbcs := hbc s hs
        rw [hminm, ← hqq] at hbcs
        rw [hbcs, hmn]
  have hlen2 : (RSSupportPlain.newStep bs qv st m).superblocks.length = m / (bs * 8) + 1 := by
    rw [newStep_superblocks]
    simp only [BLOCKS_IN_SUPERBLOCK]
    by_cases e1 : m % (bs * 8) = 0
    · have hd : m / (bs * 8) = (m - 1) / (bs * 8) + 1 := div_succ_of_dvd (bs * 8) m hK0 h1 e1
      by_cases e2 : m % bs = 0
      · simp only [if_pos e2, if_pos e1, updateLast_length, List.length_append, hlen,
          List.length_cons, List.length_nil]
        omega
      · simp only [if_neg e2, if_pos e1, List.length_append, hlen, List.length_cons,
          List.length_nil]
        omega
    · have hd : m / (bs * 8) = (m - 1) / (bs * 8) := div_succ_of_not_dvd (bs * 8) m h1 e1
      by_cases e2 : m % bs = 0
      · simp only [if_pos e2, if_neg e1, updateLast_length, hlen]
        omega
      · simp only [if_neg e2, if_neg e1, hlen]
        omega
  have hsb2 : ∀ j, j < m / (bs * 8) + 1 → ∀ s, s < 4 →
      ((RSSupportPlain.newStep bs qv st m).superblocks.getD j sbDefault).counters.get s
        = encodeSB (cntTo qv s (j * (bs * 8)))
            (fun b => if 1 ≤ b ∧ b ≤ 7 ∧ j * (bs * 8) + b * bs ≤ m
              then cntTo qv s (j * (bs * 8) + b * bs) - cntTo qv s (j * (bs * 8)) else 0) := by
    intro j hj s hs
    rw [newStep_superblocks]
    simp only [BLOCKS_IN_SUPERBLOCK]
    by_cases e1 : m % (bs * 8) = 0
    · have hdvd := Nat.dvd_of_mod_eq_zero e1
      have he2 : m % bs = 0 := Nat.mod_eq_zero_of_dvd (dvd_trans ⟨8, rfl⟩ hdvd)
      have hdiv : m / (bs * 8) = (m - 1) / (bs * 8) + 1 := div_succ_of_dvd (bs * 8) m hK0 h1 e1
      have hqm : m / (bs * 8) * (bs * 8) = m := Nat.div_mul_cancel hdvd
      have hb0 : m / bs % 8 = 0 := by
        obtain ⟨t, ht⟩ := hdvd
        subst ht
        rw [show bs * 8 * t = bs * (8 * t) by ring, Nat.mul_div_cancel_left _ hbs0,
          Nat.mul_mod_right]
      simp only [if_pos he2, if_pos e1, hb0]
      rw [updateLast_id _ _ (fun x => set_block_counters_zero x _)]
      by_cases hjold : j < st.superblocks.length
      · rw [List.getD_append _ _ _ _ hjold, hsb j hjold s hs]
        congr 1
        refine (fields_stable bs qv m j s h1 ?_).symm
        intro b hb1 hb7 heq
        have hj2 : j ≤ (m - 1) / (bs * 8) := by
          rw [hlen] at hjold
          omega
        have hcc : (j * 8 + b) * bs = (m / (bs * 8) * 8) * bs := by
          rw [show (j * 8 + b) * bs = j * (bs * 8) + b * bs by ring, heq]
          conv_lhs => rw [← hqm]
          ring
        have := Nat.eq_of_mul_eq_mul_right hbs0 hcc
        omega
      · have hjeq : j = st.superblocks.length := by
          rw [hlen]
          rw [hlen] at hjold
          omega
        rw [hjeq, List.getD_append_right _ _ _ _ (le_refl _), Nat.sub_self]
        show (SuperblockPlain.new st.superblock_counters).counters.get s = _
        rw [sb_new_get _ s hs]
        have hsup : st.superblock_counters.get s = cntTo qv s m := by
          rw [hsbc, hocc s hs, hminm]
        rw [hsup]
        have hcle := cntTo_le_self qv s m
        rw [encodeSB_zero _ (by omega)]
        have hjm : st.superblocks.length * (bs * 8) = m := by
          rw [hlen, ← hdiv, hqm]
        simp only [hjm]
        congr 1
        funext b
        rw [if_neg]
        rintro ⟨hb1, hb7, hble⟩
        have : bs ≤ b * bs := Nat.le_mul_of_pos_left bs hb1
        omega
    · have hdiv : m / (bs * 8) = (m - 1) / (bs * 8) := div_succ_of_not_dvd (bs * 8) m h1 e1
      by_cases e2 : m % bs = 0
      · have hbb7 : m / bs % 8 < 8 := Nat.mod_lt _ (by norm_num)
        have hmm : m % (bs * 8) = m % bs + bs * (m / bs % 8) := Nat.mod_mul
        have hbb1 : 1 ≤ m / bs % 8 := by
          rcases Nat.eq_zero_or_pos (m / bs % 8) with h0 | h0
          · exfalso
            apply e1
            rw [hmm, e2, h0]
            simp
          · omega
        have hmdec : m = m / (bs * 8) * (bs * 8) + m / bs % 8 * bs := by
          conv_lhs => rw [← Nat.div_add_mod m (bs * 8)]
          rw [hmm, e2]
          ring
        simp only [if_pos e2, if_neg e1]
        have hlenpos : 0 < st.superblocks.length := by rw [hlen]; omega
        by_cases hjlast : j = st.superblocks.length - 1
        · have hne : st.superblocks ≠ [] := by
            intro hnil
            rw [hnil] at hlenpos
            simp at hlenpos
          rw [hjlast, updateLast_getD_last _ _ hne]
          rw [set_block_counters_get _ _ _ s (by omega) hs]
          rw [hsb (st.superblocks.length - 1) (by omega) s hs]
          have hJl : st.superblocks.length - 1 = m / (bs * 8) := by
            rw [hlen]
            omega
          simp only [hJl]
          have hfbound : ∀ i, (if 1 ≤ i ∧ i ≤ 7 ∧ m / (bs * 8) * (bs * 8) + i * bs ≤ m - 1
              then cntTo qv s (m / (bs * 8) * (bs * 8) + i * bs)
                - cntTo qv s (m / (bs * 8) * (bs * 8)) else 0) < 4096 := by
            intro i
            by_cases hc : 1 ≤ i ∧ i ≤ 7 ∧ m / (bs * 8) * (bs * 8) + i * bs ≤ m - 1
            · rw [if_pos hc]
              have hseg := cntTo_seg_le qv s
                (Nat.le_add_right (m / (bs * 8) * (bs * 8)) (i * bs))
              have hib : i * bs ≤ 7 * bs := Nat.mul_le_mul_right bs hc.2.1
              omega
            · rw [if_neg hc]
              norm_num
          have hvv := hbc s hs
          rw [hminm, ← hdiv] at hvv
          have hvbound : st.block_counters.get s < 4096 := by
            rw [hvv]
            have hqle : m / (bs * 8) * (bs * 8) ≤ m := Nat.div_mul_le_self m (bs * 8)
            have hseg := cntTo_seg_le qv s hqle
            have hbbb : m / bs % 8 * bs ≤ 7 * bs := Nat.mul_le_mul_right bs (by omega)
            omega
          have hfb0 : (if 1 ≤ m / bs % 8 ∧ m / bs % 8 ≤ 7 ∧ m / (bs * 8) * (bs * 8)
              + m / bs % 8 * bs ≤ m - 1
              then cntTo qv s (m / (bs * 8) * (bs * 8) + m / bs % 8 * bs)
                - cntTo qv s (m / (bs * 8) * (bs * 8)) else 0) = 0 := by
            rw [if_neg]
            rintro ⟨_, _, hble⟩
            omega
          rw [encodeSB_set _ _ (m / bs % 8) (st.block_counters.get s) hbb1 (by omega)
            hfbound hvbound hfb0]
          congr 1
          funext i
          by_cases hib : i = m / bs % 8
          · subst hib
            rw [if_pos rfl, if_pos ⟨hbb1, by omega, by omega⟩, hvv, ← hmdec]
          · rw [if_neg hib]
            by_cases hc1 : 1 ≤ i ∧ i ≤ 7
            · by_cases hc2 : m / (bs * 8) * (bs * 8) + i * bs ≤ m - 1
              · rw [if_pos ⟨hc1.1, hc1.2, hc2⟩, if_pos ⟨hc1.1, hc1.2, by omega⟩]
              · rw [if_neg (by tauto), if_neg ?_]
                rintro ⟨_, _, hble⟩
                have heqm : m / (bs * 8) * (bs * 8) + i * bs = m := by omega
                conv_rhs at heqm => rw [hmdec]
                have hcc : i * bs = m / bs % 8 * bs := by omega
                have := Nat.eq_of_mul_eq_mul_right hbs0 hcc
                omega
            · rw [if_neg (by tauto), if_neg (by tauto)]
        · rw [updateLast_getD_ne _ _ _ hjlast]
          by_cases hjin : j < st.superblocks.length
          · rw [hsb j hjin s hs]
            congr 1
            refine (fields_stable bs qv m j s h1 ?_).symm
            intro b hb1 hb7 heq
            have hj2 : j ≤ (m - 1) / (bs * 8) - 1 := by
              rw [hlen] at hjin hjlast
              omega
            have hcc : (j * 8 + b) * bs = (m / (bs * 8) * 8 + m / bs % 8) * bs := by
              rw [show (j * 8 + b) * bs = j * (bs * 8) + b * bs by ring, heq]
              conv_lhs => rw [hmdec]
              ring
            have := Nat.eq_of_mul_eq_mul_right hbs0 hcc
            omega
          · exfalso
            rw [hlen] at hjin
            omega
      · have hjin : j < st.superblocks.length := by
          rw [hlen]
          omega
        simp only [if_neg e2, if_neg e1]
        rw [hsb j hjin s hs]
        congr 1
        refine (fields_stable bs qv m j s h1 ?_).symm
        intro b hb1 hb7 heq
        apply e2
        rw [← heq, mod_bs_zero]
  constructor
  · exact hocc2
  · rw [newStep_sbc, newStep_occs, hsbc]
  · rw [hlen2]
    simp
  · intro s hs
    have h := hbc2 s hs
    rw [show m + 1 - 1 = m from rfl]
    exact h
  · intro j hj s hs
    rw [hlen2] at hj
    have h := hsb2 j hj s hs
    simp only [Nat.add_sub_cancel]
    exact h
  · intro s hs
    rw [newStep_samples]
    simp only [BLOCKS_IN_SUPERBLOCK]
    by_cases hml : m < qv.length
    · have hsym4 : qv.getD m 0 < 4 := hwf _ (getD_mem qv m hml 0)
      have hsymd : qv.getD m 4 = qv.getD m 0 := getD_default_eq qv m hml 4 0
      by_cases hsamp : st.occs.get (qv.getD m 0) % SELECT_NUM_SAMPLES = 0
      · rw [if_pos ⟨hml, hsamp⟩, min_eq_left (by omega)]
        by_cases hss : qv.getD m 0 = s
        · have hcm : cntTo qv s m % 8192 = 0 := by
            rw [hss] at hsamp
            rw [hocc s hs, hminm] at hsamp
            simpa [SELECT_NUM_SAMPLES] using hsamp
          rw [hss]
          rw [QuadL.get_push_self _ _ _ (hss ▸ hsym4), List.length_append, hslen s hs, hminm]
          have hsucc : cntTo qv s (m + 1) = cntTo qv s m + 1 :=
            cntTo_occ_succ qv s m hml (hss ▸ hsymd)
          rw [hsucc]
          simp only [numSamples, SELECT_NUM_SAMPLES, List.length_cons, List.length_nil]
          by_cases hc0 : cntTo qv s m = 0
          · rw [if_pos hc0, hc0]
            norm_num
          · rw [if_neg hc0, if_neg (show ¬ cntTo qv s m + 1 = 0 from by omega)]
            omega
        · rw [QuadL.get_push_ne _ _ _ _ hsym4 hs hss, hslen s hs, hminm]
          congr 1
          have hsucc := cntTo_succ qv s m hml
          rw [hsymd, if_neg hss] at hsucc
          omega
      · rw [if_neg (by tauto), min_eq_left (by omega), hslen s hs, hminm]
        by_cases hss : qv.getD m 0 = s
        · have hsucc : cntTo qv s (m + 1) = cntTo qv s m + 1 :=
            cntTo_occ_succ qv s m hml (hss ▸ hsymd)
          have hcm : ¬ cntTo qv s m % 8192 = 0 := by
            intro h0
            apply hsamp
            rw [hss, hocc s hs, hminm]
            simpa [SELECT_NUM_SAMPLES] using h0
          rw [hsucc]
          simp only [numSamples, SELECT_NUM_SAMPLES]
          have hc0 : ¬ cntTo qv s m = 0 := fun h => hcm (by rw [h])
          rw [if_neg hc0, if_neg (show ¬ cntTo qv s m + 1 = 0 from by omega)]
          omega
        · congr 1
          have hsucc := cntTo_succ qv s m hml
          rw [hsymd, if_neg hss] at hsucc
          omega
    · have hmn : m = qv.length := by omega
      rw [if_neg (by tauto), hslen s hs, hminm, min_eq_right (by omega), hmn]
  · intro s hs jj hjj
    rw [newStep_samples] at hjj ⊢
    simp only [BLOCKS_IN_SUPERBLOCK] at hjj ⊢
    have hminmono : ∀ p, p < min m qv.length → p < min (m + 1) qv.length := by
      intro p hp
      omega
    by_cases hml : m < qv.length
    · have hsym4 : qv.getD m 0 < 4 := hwf _ (getD_mem qv m hml 0)
      have hsymd : qv.getD m 4 = qv.getD m 0 := getD_default_eq qv m hml 4 0
      by_cases hsamp : st.occs.get (qv.getD m 0) % SELECT_NUM_SAMPLES = 0
      · rw [if_pos ⟨hml, hsamp⟩] at hjj ⊢
        by_cases hss : qv.getD m 0 = s
        · have hcm : cntTo qv s m % 8192 = 0 := by
            rw [hss] at hsamp
            rw [hocc s hs, hminm] at hsamp
            simpa [SELECT_NUM_SAMPLES] using hsamp
          rw [hss] at hjj ⊢
          rw [QuadL.get_push_self _ _ _ (hss ▸ hsym4)] at hjj ⊢
          rw [List.length_append, List.length_cons, List.length_nil] at hjj
          by_cases hjold : jj < (st.select_samples.get s).length
          · obtain ⟨p, hp1, hp2, hp3, hp4⟩ := hsval s hs jj hjold
            refine ⟨p, hminmono p hp1, hp2, hp3, ?_⟩
            rw [List.getD_append _ _ _ _ hjold]
            exact hp4
          · have hjj2 : jj = (st.select_samples.get s).length := by omega
            refine ⟨m, by rw [min_eq_left (by omega)]; omega, hss ▸ hsymd, ?_, ?_⟩
            · rw [hjj2, hslen s hs, hminm]
              simp only [numSamples, SELECT_NUM_SAMPLES]
              by_cases hc0 : cntTo qv s m = 0
              · rw [if_pos hc0, hc0]
              · rw [if_neg hc0]
                omega
            · rw [hjj2, List.getD_append_right _ _ _ _ (le_refl _), Nat.sub_self]
              show m / (bs * 8) % 2 ^ 32 = m / (bs * 8)
              have hdle : m / (bs * 8) ≤ m / 2048 :=
                Nat.div_le_div_left (by omega) (by omega)
              have hsmall : m / 2048 < 2 ^ 32 := by omega
              exact Nat.mod_eq_of_lt (by omega)
        · rw [QuadL.get_push_ne _ _ _ _ hsym4 hs hss] at hjj ⊢
          obtain ⟨p, hp1, hp2, hp3, hp4⟩ := hsval s hs jj hjj
          exact ⟨p, hminmono p hp1, hp2, hp3, hp4⟩
      · rw [if_neg (by tauto)] at hjj ⊢
        obtain ⟨p, hp1, hp2, hp3, hp4⟩ := hsval s hs jj hjj
        exact ⟨p, hminmono p hp1, hp2, hp3, hp4⟩
    · rw [if_neg (by tauto)] at hjj ⊢
      obtain ⟨p, hp1, hp2, hp3, hp4⟩ := hsval s hs jj hjj
      exact ⟨p, hminmono p hp1, hp2, hp3, hp4⟩

theorem rsInv_holds (bs : Nat) (qv : List Nat) (hbs : bs = 256 ∨ bs = 512)
    (hn : qv.length < 2 ^ 43) (hwf : ∀ x ∈ qv, x < 4) (m : Nat) (h1 : 1 ≤ m)
    (hm : m ≤ qv.length + 1) : RSInv bs qv m (rsLoop bs qv m) := by
  induction m with
  | zero => omega
  | succ k ih =>
    by_cases hk : k = 0
    · subst hk
      exact rsInv_base bs qv hbs hn hwf
    · exact rsInv_step bs qv hbs hn hwf k (by omega) (by omega) (ih (by omega) (by omega))

theorem new_n (bs : Nat) (qv : List Nat) : (RSSupportPlain.new bs qv).n = qv.length := by
  unfold RSSupportPlain.new
  rfl

theorem new_occs (bs : Nat) (qv : List Nat) :
    (RSSupportPlain.new bs qv).occs = (rsLoop bs qv (qv.length + 1)).occs := by
  unfold RSSupportPlain.new rsLoop rsInit
  rfl

theorem new_superblocks (bs : Nat) (qv : List Nat) :
    (RSSupportPlain.new bs qv).superblocks =
      (if qv.length / bs % BLOCKS_IN_SUPERBLOCK + 1 < BLOCKS_IN_SUPERBLOCK then
        updateLast
          (fun sb => sb.set_block_counters (qv.length / bs % BLOCKS_IN_SUPERBLOCK + 1)
            (rsLoop bs qv (qv.length + 1)).block_counters)
          (rsLoop bs qv (qv.length + 1)).superblocks
      else (rsLoop bs qv (qv.length + 1)).superblocks) := by
  unfold RSSupportPlain.new rsLoop rsInit
  rfl

theorem new_samples_get (bs : Nat) (qv : List Nat) (s : Nat) (hs : s < 4) :
    (RSSupportPlain.new bs qv).select_samples.get s =
      sampleSentinel ((rsLoop bs qv (qv.length + 1)).select_samples.get s)
        (RSSupportPlain.new bs qv).superblocks.length := by
  interval_cases s <;> rfl

theorem rs_new_len (bs : Nat) (qv : List Nat) (hbs : bs = 256 ∨ bs = 512)
    (hn : qv.length < 2 ^ 43) (hwf : ∀ x ∈ qv, x < 4) :
    (RSSupportPlain.new bs qv).superblocks.length = qv.length / (bs * 8) + 1 := by
  have inv := rsInv_holds bs qv hbs hn hwf (qv.length + 1) (by omega) (by omega)
  have hlen := inv.len_eq
  rw [Nat.add_sub_cancel] at hlen
  rw [new_superblocks]
  by_cases h : qv.length / bs % BLOCKS_IN_SUPERBLOCK + 1 < BLOCKS_IN_SUPERBLOCK
  · rw [if_pos h, updateLast_length, hlen]
  · rw [if_neg h, hlen]

theorem fieldsF_eq_loop (bs : Nat) (qv : List Nat) (j s : Nat)
    (h : j ≠ qv.length / (bs * 8) ∨ ¬ qv.length % (bs * 8) / bs + 1 ≤ 7) :
    fieldsF bs qv j s = (fun b =>
      if 1 ≤ b ∧ b ≤ 7 ∧ j * (bs * 8) + b * bs ≤ qv.length then
        cntTo qv s (j * (bs * 8) + b * bs) - cntTo qv s (j * (bs * 8)) else 0) := by
  funext b
  unfold fieldsF
  by_cases h1 : 1 ≤ b ∧ b ≤ 7 ∧ j * (bs * 8) + b * bs ≤ qv.length
  · rw [if_pos h1, if_pos h1]
  · rw [if_neg h1, if_neg h1]
    rw [if_neg ?hc]
    case hc =>
      rintro ⟨hb1, hb7, hj, hbe⟩
      rcases h with hj2 | hb72
      · exact hj2 hj
      · exact hb72 (hbe ▸ hb7)

theorem fieldsF_lt (bs : Nat) (qv : List Nat) (j s : Nat) (hbs0 : 0 < bs)
    (hbs512 : bs ≤ 512) : ∀ b, fieldsF bs qv j s b < 4096 := by
  intro b
  unfold fieldsF
  by_cases h1 : 1 ≤ b ∧ b ≤ 7 ∧ j * (bs * 8) + b * bs ≤ qv.length
  · rw [if_pos h1]
    have hseg := cntTo_seg_le qv s
      (show j * (bs * 8) ≤ j * (bs * 8) + b * bs from Nat.le_add_right _ _)
    have hbb : b * bs ≤ 7 * 512 := Nat.mul_le_mul h1.2.1 hbs512
    omega
  · rw [if_neg h1]
    by_cases h2 : 1 ≤ b ∧ b ≤ 7 ∧ j = qv.length / (bs * 8) ∧
        b = qv.length % (bs * 8) / bs + 1
    · rw [if_pos h2]
      obtain ⟨_, _, hj, _⟩ := h2
      rw [hj]
      have hseg := cntTo_seg_le qv s
        (show qv.length / (bs * 8) * (bs * 8) ≤ qv.length from Nat.div_mul_le_self _ _)
      have he := Nat.div_add_mod qv.length (bs * 8)
      have he2 : qv.length / (bs * 8) * (bs * 8) = bs * 8 * (qv.length / (bs * 8)) := by
        ring
      have h5 : qv.length % (bs * 8) < bs * 8 := Nat.mod_lt _ (by omega)
      omega
    · rw [if_neg h2]
      norm_num

theorem loopF_lt (bs : Nat) (qv : List Nat) (j s : Nat) (hbs0 : 0 < bs)
    (hbs512 : bs ≤ 512) : ∀ b,
    (if 1 ≤ b ∧ b ≤ 7 ∧ j * (bs * 8) + b * bs ≤ qv.length then
      cntTo qv s (j * (bs * 8) + b * bs) - cntTo qv s (j * (bs * 8)) else 0) < 4096 := by
  intro b
  by_cases h1 : 1 ≤ b ∧ b ≤ 7 ∧ j * (bs * 8) + b * bs ≤ qv.length
  · rw [if_pos h1]
    have hseg := cntTo_seg_le qv s
      (show j * (bs * 8) ≤ j * (bs * 8) + b * bs from Nat.le_add_right _ _)
    have hbb : b * bs ≤ 7 * 512 := Nat.mul_le_mul h1.2.1 hbs512
    omega
  · rw [if_neg h1]
    norm_num

theorem rs_new_word (bs : Nat) (qv : List Nat) (hbs : bs = 256 ∨ bs = 512)
    (hn : qv.length < 2 ^ 43) (hwf : ∀ x ∈ qv, x < 4) (j s : Nat) (hs : s < 4)
    (hj : j ≤ qv.length / (bs * 8)) :
    ((RSSupportPlain.new bs qv).superblocks.getD j sbDefault).counters.get s =
      encodeSB (cntTo qv s (j * (bs * 8))) (fieldsF bs qv j s) := by
  have hbs0 : 0 < bs := by rcases hbs with rfl | rfl <;> norm_num
  have hbs512 : bs ≤ 512 := by rcases hbs with rfl | rfl <;> norm_num
  have inv := rsInv_holds bs qv hbs hn hwf (qv.length + 1) (by omega) (by omega)
  have hlen := inv.len_eq
  rw [Nat.add_sub_cancel] at hlen
  have hsb := inv.sb_eq j (by rw [hlen]; omega) s hs
  simp only [Nat.add_sub_cancel] at hsb
  have hmodid : qv.length % (bs * 8) / bs = qv.length / bs % 8 :=
    Nat.mod_mul_right_div_self qv.length bs 8
  rw [new_superblocks]
  by_cases hnb : qv.length / bs % BLOCKS_IN_SUPERBLOCK + 1 < BLOCKS_IN_SUPERBLOCK
  · rw [if_pos hnb]
    simp only [BLOCKS_IN_SUPERBLOCK] at hnb ⊢
    by_cases hjl : j = qv.length / (bs * 8)
    · subst hjl
      have hne : (rsLoop bs qv (qv.length + 1)).superblocks ≠ [] :=
        List.length_pos.mp (by rw [hlen]; exact Nat.succ_pos _)
      have hidx : qv.length / (bs * 8) =
          (rsLoop bs qv (qv.length + 1)).superblocks.length - 1 := by
        rw [hlen]
        simp
      rw [hidx, updateLast_getD_last _ _ hne, ← hidx]
      rw [set_block_counters_get
        ((rsLoop bs qv (qv.length + 1)).superblocks.getD (qv.length / (bs * 8)) sbDefault)
        (qv.length / bs % 8 + 1) ((rsLoop bs qv (qv.length + 1)).block_counters) s
        (by omega) hs]
      rw [hsb]
      have hbc := inv.bc_eq s hs
      simp only [Nat.add_sub_cancel, min_eq_right (Nat.le_succ _)] at hbc
      rw [hbc]
      have hnotle : ¬ (qv.length / (bs * 8) * (bs * 8) +
          (qv.length / bs % 8 + 1) * bs ≤ qv.length) := by
        intro hle
        rw [← hmodid] at hle
        have e1 := Nat.div_add_mod qv.length (bs * 8)
        have e2 := Nat.div_add_mod (qv.length % (bs * 8)) bs
        have e3 : qv.length % (bs * 8) % bs < bs := Nat.mod_lt _ (by omega)
        have e4 : (qv.length % (bs * 8) / bs + 1) * bs =
            bs * (qv.length % (bs * 8) / bs) + bs := by ring
        have e5 : qv.length / (bs * 8) * (bs * 8) =
            bs * 8 * (qv.length / (bs * 8)) := by ring
        omega
      have hfb : (if 1 ≤ qv.length / bs % 8 + 1 ∧ qv.length / bs % 8 + 1 ≤ 7 ∧
          qv.length / (bs * 8) * (bs * 8) + (qv.length / bs % 8 + 1) * bs ≤ qv.length
          then cntTo qv s
            (qv.length / (bs * 8) * (bs * 8) + (qv.length / bs % 8 + 1) * bs) -
            cntTo qv s (qv.length / (bs * 8) * (bs * 8)) else 0) = 0 := by
        rw [if_neg (fun hcon => hnotle hcon.2.2)]
      have hv : cntTo qv s qv.length -
          cntTo qv s (qv.length / (bs * 8) * (bs * 8)) < 4096 := by
        have hseg := cntTo_seg_le qv s
          (show qv.length / (bs * 8) * (bs * 8) ≤ qv.length from Nat.div_mul_le_self _ _)
        have he := Nat.div_add_mod qv.length (bs * 8)
        have he2 : qv.length / (bs * 8) * (bs * 8) =
            bs * 8 * (qv.length / (bs * 8)) := by ring
        have h5 : qv.length % (bs * 8) < bs * 8 := Nat.mod_lt _ (by omega)
        omega
      rw [encodeSB_set (cntTo qv s (qv.length / (bs * 8) * (bs * 8)))
        (fun b => if 1 ≤ b ∧ b ≤ 7 ∧
            qv.length / (bs * 8) * (bs * 8) + b * bs ≤ qv.length then
          cntTo qv s (qv.length / (bs * 8) * (bs * 8) + b * bs) -
            cntTo qv s (qv.length / (bs * 8) * (bs * 8)) else 0)
        (qv.length / bs % 8 + 1)
        (cntTo qv s qv.length - cntTo qv s (qv.length / (bs * 8) * (bs * 8)))
        (by omega) (by omega) (loopF_lt bs qv _ s hbs0 hbs512) hv hfb]
      congr 1
      funext b
      by_cases hb : b = qv.length / bs % 8 + 1
      · rw [if_pos hb, hb]
        unfold fieldsF
        rw [if_neg (fun hcon => hnotle hcon.2.2)]
        rw [if_pos ⟨by omega, by omega, rfl, by rw [hmodid]⟩]
      · rw [if_neg hb]
        unfold fieldsF
        by_cases h1 : 1 ≤ b ∧ b ≤ 7 ∧
            qv.length / (bs * 8) * (bs * 8) + b * bs ≤ qv.length
        · rw [if_pos h1, if_pos h1]
        · rw [if_neg h1, if_neg h1, if_neg ?hc2]
          case hc2 =>
            rintro ⟨_, _, _, hbe⟩
            rw [hmodid] at hbe
            exact hb hbe
    · rw [updateLast_getD_ne _ _ j (by rw [hlen]; omega), hsb,
        fieldsF_eq_loop bs qv j s (Or.inl hjl)]
  · rw [if_neg hnb]
    simp only [BLOCKS_IN_SUPERBLOCK] at hnb
    rw [hsb, fieldsF_eq_loop bs qv j s (Or.inr (by rw [hmodid]; omega))]

theorem cntTo_le_len (qv : List Nat) (s j : Nat) : cntTo qv s j ≤ qv.length := by
  unfold cntTo
  exact le_trans (List.count_le_length _ _) (by simp [List.length_take])

theorem rs_new_sup (bs : Nat) (qv : List Nat) (hbs : bs = 256 ∨ bs = 512)
    (hn : qv.length < 2 ^ 43) (hwf : ∀ x ∈ qv, x < 4) (j s : Nat) (hs : s < 4)
    (hj : j ≤ qv.length / (bs * 8)) :
    ((RSSupportPlain.new bs qv).superblocks.getD j sbDefault).get_superblock_counter s =
      cntTo qv s (j * (bs * 8)) := by
  have hbs0 : 0 < bs := by rcases hbs with rfl | rfl <;> norm_num
  have hbs512 : bs ≤ 512 := by rcases hbs with rfl | rfl <;> norm_num
  unfold SuperblockPlain.get_superblock_counter
  rw [rs_new_word bs qv hbs hn hwf j s hs hj]
  exact encodeSB_sup _ _
    (lt_of_le_of_lt (cntTo_le_len qv s _) (lt_trans hn (by norm_num)))
    (fieldsF_lt bs qv j s hbs0 hbs512)

theorem rs_new_field (bs : Nat) (qv : List Nat) (hbs : bs = 256 ∨ bs = 512)
    (hn : qv.length < 2 ^ 43) (hwf : ∀ x ∈ qv, x < 4) (j s b : Nat) (hs : s < 4)
    (hj : j ≤ qv.length / (bs * 8)) (hb : b ≤ 7)
    (hble : j * (bs * 8) + b * bs ≤ qv.length) :
    ((RSSupportPlain.new bs qv).superblocks.getD j sbDefault).get_block_counter s b =
      cntTo qv s (j * (bs * 8) + b * bs) - cntTo qv s (j * (bs * 8)) := by
  have hbs0 : 0 < bs := by rcases hbs with rfl | rfl <;> norm_num
  have hbs512 : bs ≤ 512 := by rcases hbs with rfl | rfl <;> norm_num
  unfold SuperblockPlain.get_block_counter
  by_cases hb0 : b = 0
  · rw [if_pos hb0]
    subst hb0
    simp
  · rw [if_neg hb0]
    rw [rs_new_word bs qv hbs hn hwf j s hs hj]
    rw [encodeSB_field _ _ b (by omega) hb (fieldsF_lt bs qv j s hbs0 hbs512)]
    unfold fieldsF
    rw [if_pos ⟨by omega, hb, hble⟩]

theorem rs_new_field_sentinel (bs : Nat) (qv : List Nat) (hbs : bs = 256 ∨ bs = 512)
    (hn : qv.length < 2 ^ 43) (hwf : ∀ x ∈ qv, x < 4) (s : Nat) (hs : s < 4)
    (hb7 : qv.length % (bs * 8) / bs + 1 ≤ 7) :
    ((RSSupportPlain.new bs qv).superblocks.getD (qv.length / (bs * 8))
        sbDefault).get_block_counter s (qv.length % (bs * 8) / bs + 1) =
      cntTo qv s qv.length - cntTo qv s (qv.length / (bs * 8) * (bs * 8)) := by
  have hbs0 : 0 < bs := by rcases hbs with rfl | rfl <;> norm_num
  have hbs512 : bs ≤ 512 := by rcases hbs with rfl | rfl <;> norm_num
  have hnotle : ¬ (qv.length / (bs * 8) * (bs * 8) +
      (qv.length % (bs * 8) / bs + 1) * bs ≤ qv.length) := by
    intro hle
    have e1 := Nat.div_add_mod qv.length (bs * 8)
    have e2 := Nat.div_add_mod (qv.length % (bs * 8)) bs
    have e3 : qv.length % (bs * 8) % bs < bs := Nat.mod_lt _ (by omega)
    have e4 : (qv.length % (bs * 8) / bs + 1) * bs =
        bs * (qv.length % (bs * 8) / bs) + bs := by ring
    have e5 : qv.length / (bs * 8) * (bs * 8) =
        bs * 8 * (qv.length / (bs * 8)) := by ring
    omega
  unfold SuperblockPlain.get_block_counter
  rw [if_neg (Nat.succ_ne_zero _)]
  rw [rs_new_word bs qv hbs hn hwf _ s hs (le_refl _)]
  rw [encodeSB_field _ _ _ (Nat.succ_le_succ (Nat.zero_le _)) hb7
    (fieldsF_lt bs qv _ s hbs0 hbs512)]
  unfold fieldsF
  rw [if_neg (fun hcon => hnotle hcon.2.2), if_pos
    ⟨Nat.succ_le_succ (Nat.zero_le _), hb7, rfl, rfl⟩]

theorem rs_new_occs (bs : Nat) (qv : List Nat) (hbs : bs = 256 ∨ bs = 512)
    (hn : qv.length < 2 ^ 43) (hwf : ∀ x ∈ qv, x < 4) (s : Nat) (hs : s < 4) :
    (RSSupportPlain.new bs qv).occs.get s = cntTo qv s qv.length := by
  rw [new_occs]
  have inv := rsInv_holds bs qv hbs hn hwf (qv.length + 1) (by omega) (by omega)
  have h := inv.occs_eq s hs
  rw [min_eq_right (Nat.le_succ _)] at h
  exact h

theorem get?_eq_getD_sb (l : List SuperblockPlain) (j : Nat) (h : j < l.length) :
    l.get? j = some (l.getD j sbDefault) := by
  rw [List.get?_eq_getElem?, List.getElem?_eq_getElem h, List.getD_eq_getElem l sbDefault h]

theorem rank_block_some (r : RSSupportPlain) (bs SYMBOL i : Nat) (sb : SuperblockPlain)
    (h : r.superblocks.get? (i / (bs * BLOCKS_IN_SUPERBLOCK)) = some sb) :
    r.rank_block bs SYMBOL i = some (sb.get_superblock_counter SYMBOL +
      sb.get_block_counter SYMBOL (i / bs % 8)) := by
  unfold RSSupportPlain.rank_block
  rw [h]

theorem rs_rank_block_eq (bs : Nat) (qv : List Nat) (hbs : bs = 256 ∨ bs = 512)
    (hn : qv.length < 2 ^ 43) (hwf : ∀ x ∈ qv, x < 4) (s i : Nat) (hs : s < 4)
    (hi : i ≤ qv.length) :
    (RSSupportPlain.new bs qv).rank_block bs s i = some (cntTo qv s (i / bs * bs)) := by
  have hbs0 : 0 < bs := by rcases hbs with rfl | rfl <;> norm_num
  have hL := rs_new_len bs qv hbs hn hwf
  have hjle : i / (bs * 8) ≤ qv.length / (bs * 8) := Nat.div_le_div_right hi
  have e : i / (bs * 8) * (bs * 8) + i / bs % 8 * bs = i / bs * bs := by
    rw [← Nat.div_div_eq_div_mul]
    have hq := Nat.div_add_mod (i / bs) 8
    calc i / bs / 8 * (bs * 8) + i / bs % 8 * bs
        = bs * (8 * (i / bs / 8) + i / bs % 8) := by ring
      _ = bs * (i / bs) := by rw [hq]
      _ = i / bs * bs := by ring
  have hget : (RSSupportPlain.new bs qv).superblocks.get? (i / (bs * BLOCKS_IN_SUPERBLOCK)) =
      some ((RSSupportPlain.new bs qv).superblocks.getD (i / (bs * 8)) sbDefault) := by
    simp only [BLOCKS_IN_SUPERBLOCK]
    exact get?_eq_getD_sb _ _ (by rw [hL]; omega)
  rw [rank_block_some _ _ _ _ _ hget]
  rw [rs_new_sup bs qv hbs hn hwf _ s hs hjle]
  rw [rs_new_field bs qv hbs hn hwf _ s _ hs hjle (by omega)
    (by rw [e]; exact le_trans (Nat.div_mul_le_self i bs) hi)]
  rw [e]
  have hmono := cntTo_mono qv s (show i / (bs * 8) * (bs * 8) ≤ i / bs * bs from by
    rw [← e]; exact Nat.le_add_right _ _)
  congr 1
  omega

theorem get?_eq_getD_nat (l : List Nat) (j : Nat) (h : j < l.length) :
    l.get? j = some (l.getD j 0) := by
  rw [List.get?_eq_getElem?, List.getElem?_eq_getElem h, List.getD_eq_getElem l 0 h]

theorem isEmpty_false_of_length_pos (l : List Nat) (h : 0 < l.length) :
    l.isEmpty = false := by
  cases l with
  | nil => simp at h
  | cons a t => rfl

theorem rs_new_sample_lo (bs : Nat) (qv : List Nat) (hbs : bs = 256 ∨ bs = 512)
    (hn : qv.length < 2 ^ 43) (hwf : ∀ x ∈ qv, x < 4) (s i : Nat) (hs : s < 4)
    (h1 : 1 ≤ i) (hi : i ≤ cntTo qv s qv.length) :
    ∃ p, p < qv.length ∧ qv.getD p 4 = s ∧
      cntTo qv s p = (i - 1) / SELECT_NUM_SAMPLES * SELECT_NUM_SAMPLES ∧
      ((RSSupportPlain.new bs qv).select_samples.get s).get?
        ((i - 1) / SELECT_NUM_SAMPLES) = some (p / (bs * 8)) := by
  have inv := rsInv_holds bs qv hbs hn hwf (qv.length + 1) (by omega) (by omega)
  have hslen := inv.samples_len s hs
  rw [min_eq_right (Nat.le_succ _)] at hslen
  have hnum : ((rsLoop bs qv (qv.length + 1)).select_samples.get s).length =
      (cntTo qv s qv.length - 1) / 8192 + 1 := by
    rw [hslen]
    simp only [numSamples, SELECT_NUM_SAMPLES]
    rw [if_neg (show ¬ cntTo qv s qv.length = 0 from by omega)]
  have h8 : (i - 1) / 8192 ≤ (cntTo qv s qv.length - 1) / 8192 :=
    Nat.div_le_div_right (by omega)
  have hlt : (i - 1) / SELECT_NUM_SAMPLES <
      ((rsLoop bs qv (qv.length + 1)).select_samples.get s).length := by
    simp only [SELECT_NUM_SAMPLES]
    rw [hnum]
    omega
  obtain ⟨p, hp1, hp2, hp3, hp4⟩ := inv.samples_val s hs ((i - 1) / SELECT_NUM_SAMPLES) hlt
  rw [min_eq_right (Nat.le_succ _)] at hp1
  refine ⟨p, hp1, hp2, hp3, ?_⟩
  rw [new_samples_get bs qv s hs]
  unfold sampleSentinel
  rw [if_neg (by
    rw [isEmpty_false_of_length_pos ((rsLoop bs qv (qv.length + 1)).select_samples.get s)
      (by rw [hnum]; omega)]
    exact Bool.false_ne_true)]
  rw [List.get?_append hlt, get?_eq_getD_nat _ _ hlt, hp4]

theorem rs_new_sample_hi (bs : Nat) (qv : List Nat) (hbs : bs = 256 ∨ bs = 512)
    (hn : qv.length < 2 ^ 43) (hwf : ∀ x ∈ qv, x < 4) (s i : Nat) (hs : s < 4)
    (h1 : 1 ≤ i) (hi : i ≤ cntTo qv s qv.length) (p : Nat) (hp : p < qv.length)
    (hocc : qv.getD p 4 = s) (hcnt : cntTo qv s p = i - 1) :
    ∃ last, ((RSSupportPlain.new bs qv).select_samples.get s).get?
        ((i - 1) / SELECT_NUM_SAMPLES + 1) = some last ∧
      p / (bs * 8) ≤ last ∧ last ≤ qv.length / (bs * 8) := by
  have hbs0 : 0 < bs := by rcases hbs with rfl | rfl <;> norm_num
  have inv := rsInv_holds bs qv hbs hn hwf (qv.length + 1) (by omega) (by omega)
  have hslen := inv.samples_len s hs
  rw [min_eq_right (Nat.le_succ _)] at hslen
  have hnum : ((rsLoop bs qv (qv.length + 1)).select_samples.get s).length =
      (cntTo qv s qv.length - 1) / 8192 + 1 := by
    rw [hslen]
    simp only [numSamples, SELECT_NUM_SAMPLES]
    rw [if_neg (show ¬ cntTo qv s qv.length = 0 from by omega)]
  rw [new_samples_get bs qv s hs]
  unfold sampleSentinel
  rw [if_neg (by
    rw [isEmpty_false_of_length_pos ((rsLoop bs qv (qv.length + 1)).select_samples.get s)
      (by rw [hnum]; omega)]
    exact Bool.false_ne_true)]
  by_cases hcase : (i - 1) / SELECT_NUM_SAMPLES + 1 <
      ((rsLoop bs qv (qv.length + 1)).select_samples.get s).length
  · obtain ⟨ph, hq1, hq2, hq3, hq4⟩ :=
      inv.samples_val s hs ((i - 1) / SELECT_NUM_SAMPLES + 1) hcase
    rw [min_eq_right (Nat.le_succ _)] at hq1
    refine ⟨ph / (bs * 8), ?_, ?_, ?_⟩
    · rw [List.get?_append hcase, get?_eq_getD_nat _ _ hcase, hq4]
    · have hge : i ≤ cntTo qv s ph := by
        simp only [SELECT_NUM_SAMPLES] at hq3
        omega
      have hple : p ≤ ph := by
        by_contra hgt
        push_neg at hgt
        have := cntTo_mono qv s (le_of_lt hgt)
        omega
      exact Nat.div_le_div_right hple
    · exact Nat.div_le_div_right (le_of_lt hq1)
  · have hidx : (i - 1) / SELECT_NUM_SAMPLES + 1 =
        ((rsLoop bs qv (qv.length + 1)).select_samples.get s).length := by
      simp only [SELECT_NUM_SAMPLES] at hcase ⊢
      rw [hnum] at hcase ⊢
      have h8 : (i - 1) / 8192 ≤ (cntTo qv s qv.length - 1) / 8192 :=
        Nat.div_le_div_right (by omega)
      omega
    have hLlt : qv.length / (bs * 8) < 2 ^ 32 := by
      have hd1 : qv.length / (bs * 8) ≤ qv.length / 2048 :=
        Nat.div_le_div_left (by rcases hbs with rfl | rfl <;> norm_num) (by norm_num)
      have hd2 : qv.length / 2048 < 2 ^ 32 := by omega
      omega
    refine ⟨qv.length / (bs * 8), ?_, Nat.div_le_div_right (le_of_lt hp), le_refl _⟩
    rw [List.get?_append_right (by omega), hidx, Nat.sub_self]
    have hLen : (RSSupportPlain.new bs qv).superblocks.length =
        qv.length / (bs * 8) + 1 := rs_new_len bs qv hbs hn hwf
    have hx : ∀ t : Nat, t < 2 ^ 32 → ((t + 1) % 2 ^ 32 + (2 ^ 32 - 1)) % 2 ^ 32 = t := by
      intro t ht
      omega
    rw [hLen, List.get?_cons_zero, hx _ hLlt]

theorem searchGo_stop (sbs : List SuperblockPlain) (symbol i T : Nat)
    (hC : ∀ j, j < sbs.length →
      ((sbs.getD j sbDefault).get_superblock_counter symbol < i ↔ j ≤ T))
    (step : Nat) : ∀ fuel lo hi, 1 ≤ fuel → T < lo → hi ≤ sbs.length →
    RSSupportPlain.searchGo sbs symbol i step fuel lo hi = some lo := by
  intro fuel lo hi hf hT hhi
  match fuel, hf with
  | fuel + 1, _ =>
    unfold RSSupportPlain.searchGo
    by_cases hlo : lo < hi
    · rw [if_pos hlo]
      rw [get?_eq_getD_sb sbs lo (by omega)]
      show (if i ≤ (sbs.getD lo sbDefault).get_superblock_counter symbol then some lo
        else RSSupportPlain.searchGo sbs symbol i step fuel (lo + step) hi) = some lo
      have hcl := hC lo (by omega)
      have hcond : i ≤ (sbs.getD lo sbDefault).get_superblock_counter symbol := by
        omega
      rw [if_pos hcond]
    · rw [if_neg hlo]

theorem searchGo_gallop (sbs : List SuperblockPlain) (symbol i T step hi : Nat)
    (hC : ∀ j, j < sbs.length →
      ((sbs.getD j sbDefault).get_superblock_counter symbol < i ↔ j ≤ T))
    (hstep : 1 ≤ step) (hThi : T < hi) (hhi : hi ≤ sbs.length) :
    ∀ fuel lo, lo ≤ T → hi + 1 ≤ fuel + lo →
    ∃ lo1, RSSupportPlain.searchGo sbs symbol i step fuel lo hi = some lo1 ∧
      step ≤ lo1 ∧ lo1 - step ≤ T := by
  intro fuel
  induction fuel with
  | zero =>
    intro lo hlo hfuel
    omega
  | succ fuel ih =>
    intro lo hlo hfuel
    unfold RSSupportPlain.searchGo
    rw [if_pos (show lo < hi from by omega)]
    rw [get?_eq_getD_sb sbs lo (by omega)]
    show (∃ lo1, (if i ≤ (sbs.getD lo sbDefault).get_superblock_counter symbol then some lo
        else RSSupportPlain.searchGo sbs symbol i step fuel (lo + step) hi) = some lo1 ∧
      step ≤ lo1 ∧ lo1 - step ≤ T)
    have hcl := hC lo (by omega)
    have hcond : ¬ i ≤ (sbs.getD lo sbDefault).get_superblock_counter symbol := by
      omega
    rw [if_neg hcond]
    by_cases hnext : lo + step ≤ T
    · exact ih (lo + step) hnext (by omega)
    · refine ⟨lo + step, ?_, by omega, by omega⟩
      exact searchGo_stop sbs symbol i T hC step fuel (lo + step) hi (by omega)
        (by omega) hhi

theorem searchGo_linear (sbs : List SuperblockPlain) (symbol i T hi : Nat)
    (hC : ∀ j, j < sbs.length →
      ((sbs.getD j sbDefault).get_superblock_counter symbol < i ↔ j ≤ T))
    (hThi : T < hi) (hhi : hi ≤ sbs.length) :
    ∀ fuel lo, lo ≤ T + 1 → T + 2 ≤ fuel + lo →
    RSSupportPlain.searchGo sbs symbol i 1 fuel lo hi = some (T + 1) := by
  intro fuel
  induction fuel with
  | zero =>
    intro lo hlo hfuel
    omega
  | succ fuel ih =>
    intro lo hlo hfuel
    by_cases hT1 : lo = T + 1
    · subst hT1
      exact searchGo_stop sbs symbol i T hC 1 (fuel + 1) (T + 1) hi (by omega)
        (by omega) hhi
    · unfold RSSupportPlain.searchGo
      rw [if_pos (show lo < hi from by omega)]
      rw [get?_eq_getD_sb sbs lo (by omega)]
      show (if i ≤ (sbs.getD lo sbDefault).get_superblock_counter symbol then some lo
        else RSSupportPlain.searchGo sbs symbol i 1 fuel (lo + 1) hi) = some (T + 1)
      have hcl := hC lo (by omega)
      have hcond : ¬ i ≤ (sbs.getD lo sbDefault).get_superblock_counter symbol := by
        omega
      rw [if_neg hcond]
      exact ih (lo + 1) (by omega) (by omega)

theorem bpGo_reaches (sb : SuperblockPlain) (symbol target bstar : Nat) (hb7 : bstar ≤ 7)
    (hlow : ∀ b, 1 ≤ b → b ≤ bstar → sb.get_block_counter symbol b < target)
    (hhi : bstar < 7 → target ≤ sb.get_block_counter symbol (bstar + 1)) :
    ∀ rem block_id, block_id + rem = 8 → 1 ≤ block_id → block_id ≤ bstar + 1 →
    SuperblockPlain.bpGo target (List.range' block_id rem)
        (sb.counters.get symbol >>> (12 * (block_id - 1)))
        (sb.get_block_counter symbol (block_id - 1)) =
      (bstar, sb.get_block_counter symbol bstar) := by
  intro rem
  induction rem with
  | zero =>
    intro block_id hk h1 hble
    have hb8 : block_id = 8 := by omega
    have hbs7 : bstar = 7 := by omega
    subst hb8
    subst hbs7
    simp only [List.range'_zero, SuperblockPlain.bpGo]
  | succ rem ih =>
    intro block_id hk h1 hble
    have hlt : block_id < 8 := by omega
    have hcurr : (sb.counters.get symbol >>> (12 * (block_id - 1))) &&& 4095
        = sb.get_block_counter symbol block_id := by
      unfold SuperblockPlain.get_block_counter
      rw [if_neg (by omega), Nat.mul_comm]
    rw [List.range'_succ]
    simp only [SuperblockPlain.bpGo]
    by_cases hstop : block_id = bstar + 1
    · rw [if_pos (by
        rw [hcurr, hstop]
        exact hhi (by omega))]
      rw [hstop]
      simp
    · have hlow2 : sb.get_block_counter symbol block_id < target :=
        hlow block_id h1 (by omega)
      rw [if_neg (by rw [hcurr]; omega)]
      have hstep : (sb.counters.get symbol >>> (12 * (block_id - 1))) >>> 12
          = sb.counters.get symbol >>> (12 * (block_id + 1 - 1)) := by
        rw [← Nat.shiftRight_add]
        congr 1
        omega
      rw [hstep, hcurr]
      have hnext : sb.get_block_counter symbol block_id
          = sb.get_block_counter symbol (block_id + 1 - 1) := by norm_num
      rw [hnext]
      exact ih (block_id + 1) (by omega) (by omega) (by omega)

theorem block_predecessor_reaches (sb : SuperblockPlain) (symbol target bstar : Nat)
    (hb7 : bstar ≤ 7)
    (hlow : ∀ b, 1 ≤ b → b ≤ bstar → sb.get_block_counter symbol b < target)
    (hhi : bstar < 7 → target ≤ sb.get_block_counter symbol (bstar + 1)) :
    sb.block_predecessor symbol target = (bstar, sb.get_block_counter symbol bstar) := by
  have h := bpGo_reaches sb symbol target bstar hb7 hlow hhi 7 1 (by omega) (by omega)
    (by omega)
  simpa [SuperblockPlain.block_predecessor, SuperblockPlain.get_block_counter,
    Nat.shiftRight_zero] using h

theorem select_block_some (r : RSSupportPlain) (bs symbol i fs ls lo1 lo2 : Nat)
    (sb : SuperblockPlain)
    (h1 : (r.select_samples.get symbol).get? ((i - 1) / SELECT_NUM_SAMPLES) = some fs)
    (h2 : (r.select_samples.get symbol).get? ((i - 1) / SELECT_NUM_SAMPLES + 1) = some ls)
    (h3 : RSSupportPlain.searchGo r.superblocks symbol i (sqrtI (1 + ls - fs) + 1)
      (1 + ls + 1) fs (1 + ls) = some lo1)
    (h4 : ¬ lo1 < sqrtI (1 + ls - fs) + 1)
    (h5 : RSSupportPlain.searchGo r.superblocks symbol i 1 (1 + ls + 1)
      (lo1 - (sqrtI (1 + ls - fs) + 1)) (1 + ls) = some lo2)
    (h6 : ¬ lo2 < 1)
    (h7 : r.superblocks.get? (lo2 - 1) = some sb)
    (h8 : ¬ i < sb.get_superblock_counter symbol) :
    r.select_block bs symbol i = some ((lo2 - 1) * bs * BLOCKS_IN_SUPERBLOCK +
        (sb.block_predecessor symbol (i - sb.get_superblock_counter symbol)).1 * bs,
      sb.get_superblock_counter symbol +
        (sb.block_predecessor symbol (i - sb.get_superblock_counter symbol)).2) := by
  unfold RSSupportPlain.select_block
  simp only [h1, h2, h3, if_neg h4, h5, if_neg h6, h7, if_neg h8]

theorem blk_decomp (bs p : Nat) :
    p / (bs * 8) * (bs * 8) + p / bs % 8 * bs = p / bs * bs := by
  rw [← Nat.div_div_eq_div_mul]
  have hq := Nat.div_add_mod (p / bs) 8
  calc p / bs / 8 * (bs * 8) + p / bs % 8 * bs
      = bs * (8 * (p / bs / 8) + p / bs % 8) := by ring
    _ = bs * (p / bs) := by rw [hq]
    _ = p / bs * bs := by ring

theorem rs_select_block_eq (bs : Nat) (qv : List Nat) (hbs : bs = 256 ∨ bs = 512)
    (hn : qv.length < 2 ^ 43) (hwf : ∀ x ∈ qv, x < 4) (s i p : Nat) (hs : s < 4)
    (h1 : 1 ≤ i) (hp : p < qv.length) (hocc : qv.getD p 4 = s)
    (hcnt : cntTo qv s p = i - 1) :
    (RSSupportPlain.new bs qv).select_block bs s i =
      some (p / bs * bs, cntTo qv s (p / bs * bs)) := by
  have hbs0 : 0 < bs := by rcases hbs with rfl | rfl <;> norm_num
  have hisucc : cntTo qv s (p + 1) = i := by
    rw [cntTo_occ_succ qv s p hp hocc]
    omega
  have hile : i ≤ cntTo qv s qv.length := by
    have := cntTo_mono qv s (show p + 1 ≤ qv.length from hp)
    omega
  have hL := rs_new_len bs qv hbs hn hwf
  have hTle : p / (bs * 8) ≤ qv.length / (bs * 8) := Nat.div_le_div_right (le_of_lt hp)
  have hC : ∀ j, j < (RSSupportPlain.new bs qv).superblocks.length →
      (((RSSupportPlain.new bs qv).superblocks.getD j
        sbDefault).get_superblock_counter s < i ↔ j ≤ p / (bs * 8)) := by
    intro j hj
    rw [hL] at hj
    rw [rs_new_sup bs qv hbs hn hwf j s hs (by omega)]
    constructor
    · intro hlt
      by_contra hgt
      push_neg at hgt
      have hple : p + 1 ≤ j * (bs * 8) := by
        have e1 := Nat.div_add_mod p (bs * 8)
        have e2 : p % (bs * 8) < bs * 8 := Nat.mod_lt _ (by omega)
        have e3 : (bs * 8) * (p / (bs * 8) + 1) ≤ (bs * 8) * j :=
          Nat.mul_le_mul_left _ hgt
        have e4 : (bs * 8) * (p / (bs * 8) + 1) = bs * 8 * (p / (bs * 8)) + bs * 8 := by
          ring
        have e5 : j * (bs * 8) = bs * 8 * j := by ring
        omega
      have := cntTo_mono qv s hple
      omega
    · intro hle
      have hmul : j * (bs * 8) ≤ p / (bs * 8) * (bs * 8) := Nat.mul_le_mul_right _ hle
      have hdm : p / (bs * 8) * (bs * 8) ≤ p := Nat.div_mul_le_self _ _
      have := cntTo_mono qv s (le_trans hmul hdm)
      omega
  obtain ⟨plo, hplo1, hplo2, hplo3, hplo4⟩ :=
    rs_new_sample_lo bs qv hbs hn hwf s i hs h1 hile
  obtain ⟨ls, hls1, hls2, hls3⟩ :=
    rs_new_sample_hi bs qv hbs hn hwf s i hs h1 hile p hp hocc hcnt
  have hfsT : plo / (bs * 8) ≤ p / (bs * 8) := by
    have hplope : plo ≤ p := by
      by_contra hgt
      push_neg at hgt
      have := cntTo_mono qv s (show p + 1 ≤ plo from hgt)
      simp only [SELECT_NUM_SAMPLES] at hplo3
      have hsm : (i - 1) / 8192 * 8192 ≤ i - 1 := Nat.div_mul_le_self _ _
      omega
    exact Nat.div_le_div_right hplope
  have hThi : p / (bs * 8) < 1 + ls := by omega
  have hhiL : 1 + ls ≤ (RSSupportPlain.new bs qv).superblocks.length := by
    rw [hL]
    omega
  obtain ⟨lo1, hgal, hstep1, hgal2⟩ := searchGo_gallop
    (RSSupportPlain.new bs qv).superblocks s i (p / (bs * 8))
    (sqrtI (1 + ls - plo / (bs * 8)) + 1) (1 + ls) hC (by omega) hThi hhiL
    (1 + ls + 1) (plo / (bs * 8)) hfsT (Nat.le_add_right _ _)
  have hlin := searchGo_linear (RSSupportPlain.new bs qv).superblocks s i (p / (bs * 8))
    (1 + ls) hC hThi hhiL (1 + ls + 1)
    (lo1 - (sqrtI (1 + ls - plo / (bs * 8)) + 1)) (by omega) (by omega)
  have hgetT : (RSSupportPlain.new bs qv).superblocks.get? (p / (bs * 8) + 1 - 1) =
      some ((RSSupportPlain.new bs qv).superblocks.getD (p / (bs * 8)) sbDefault) := by
    rw [Nat.add_sub_cancel]
    exact get?_eq_getD_sb _ _ (by rw [hL]; omega)
  have hrank := rs_new_sup bs qv hbs hn hwf (p / (bs * 8)) s hs hTle
  have hrki : cntTo qv s (p / (bs * 8) * (bs * 8)) ≤ i - 1 := by
    have := cntTo_mono qv s (Nat.div_mul_le_self p (bs * 8))
    omega
  have h8 : ¬ i < ((RSSupportPlain.new bs qv).superblocks.getD (p / (bs * 8))
      sbDefault).get_superblock_counter s := by
    rw [hrank]
    omega
  have hble0 : p / (bs * 8) * (bs * 8) + p / bs % 8 * bs ≤ qv.length := by
    rw [blk_decomp]
    exact le_trans (Nat.div_mul_le_self p bs) (le_of_lt hp)
  have hlow : ∀ b, 1 ≤ b → b ≤ p / bs % 8 →
      ((RSSupportPlain.new bs qv).superblocks.getD (p / (bs * 8))
        sbDefault).get_block_counter s b < i - ((RSSupportPlain.new bs qv).superblocks.getD
          (p / (bs * 8)) sbDefault).get_superblock_counter s := by
    intro b hb1 hbb
    rw [hrank]
    rw [rs_new_field bs qv hbs hn hwf _ s b hs hTle (by omega)
      (le_trans (by
        have : b * bs ≤ p / bs % 8 * bs := Nat.mul_le_mul_right _ hbb
        omega) hble0)]
    have hm1 := cntTo_mono qv s (show p / (bs * 8) * (bs * 8) ≤
        p / (bs * 8) * (bs * 8) + b * bs from Nat.le_add_right _ _)
    have hm2 : cntTo qv s (p / (bs * 8) * (bs * 8) + b * bs) ≤ cntTo qv s p := by
      apply cntTo_mono
      have h3 : b * bs ≤ p / bs % 8 * bs := Nat.mul_le_mul_right _ hbb
      have h4 := blk_decomp bs p
      have h5 : p / bs * bs ≤ p := Nat.div_mul_le_self _ _
      omega
    omega
  have hhi7 : p / bs % 8 < 7 → i - ((RSSupportPlain.new bs qv).superblocks.getD
      (p / (bs * 8)) sbDefault).get_superblock_counter s ≤
      ((RSSupportPlain.new bs qv).superblocks.getD (p / (bs * 8))
        sbDefault).get_block_counter s (p / bs % 8 + 1) := by
    intro hb7
    rw [hrank]
    have hpsucc : p + 1 ≤ p / (bs * 8) * (bs * 8) + (p / bs % 8 + 1) * bs := by
      have e6 := Nat.div_add_mod p bs
      have e7 : p % bs < bs := Nat.mod_lt _ (by omega)
      have e8 : (p / bs % 8 + 1) * bs = p / bs % 8 * bs + bs := by ring
      have e9 := blk_decomp bs p
      have e10 : p / bs * bs = bs * (p / bs) := by ring
      omega
    by_cases hc : p / (bs * 8) * (bs * 8) + (p / bs % 8 + 1) * bs ≤ qv.length
    · rw [rs_new_field bs qv hbs hn hwf _ s (p / bs % 8 + 1) hs hTle (by omega) hc]
      have hm1 := cntTo_mono qv s hpsucc
      have hm2 := cntTo_mono qv s (show p / (bs * 8) * (bs * 8) ≤ p from
        Nat.div_mul_le_self _ _)
      omega
    · have hmodid : p % (bs * 8) / bs = p / bs % 8 :=
        Nat.mod_mul_right_div_self p bs 8
      have hTn : p / (bs * 8) = qv.length / (bs * 8) := by
        by_contra hne
        have hlt2 : p / (bs * 8) + 1 ≤ qv.length / (bs * 8) := by omega
        apply hc
        have e1 : (p / bs % 8 + 1) * bs ≤ 8 * bs :=
          Nat.mul_le_mul_right bs (by omega)
        have e2 : (p / (bs * 8) + 1) * (bs * 8) ≤ qv.length / (bs * 8) * (bs * 8) :=
          Nat.mul_le_mul_right _ hlt2
        have e3 := Nat.div_mul_le_self qv.length (bs * 8)
        have e4 : (p / (bs * 8) + 1) * (bs * 8) =
            p / (bs * 8) * (bs * 8) + bs * 8 := by ring
        omega
      have hbeq : p / bs % 8 = qv.length % (bs * 8) / bs := by
        have hnm : qv.length % (bs * 8) < (p / bs % 8 + 1) * bs := by
          have e2 := Nat.div_add_mod qv.length (bs * 8)
          have e5 : qv.length / (bs * 8) * (bs * 8) =
              bs * 8 * (qv.length / (bs * 8)) := by ring
          rw [hTn] at hc
          omega
        have hup : qv.length % (bs * 8) / bs < p / bs % 8 + 1 :=
          Nat.div_lt_of_lt_mul (by
            calc qv.length % (bs * 8) < (p / bs % 8 + 1) * bs := hnm
              _ = bs * (p / bs % 8 + 1) := by ring)
        have hlo2 : p % (bs * 8) ≤ qv.length % (bs * 8) - 1 := by
          have e1 := Nat.div_add_mod p (bs * 8)
          have e2 := Nat.div_add_mod qv.length (bs * 8)
          rw [hTn] at e1
          omega
        have hdn : p % (bs * 8) / bs ≤ qv.length % (bs * 8) / bs :=
          Nat.div_le_div_right (by omega)
        rw [hmodid] at hdn
        omega
      rw [hTn, hbeq]
      rw [rs_new_field_sentinel bs qv hbs hn hwf s hs (by omega)]
      have hm1 := cntTo_mono qv s (show p + 1 ≤ qv.length from hp)
      have hm2 := cntTo_mono qv s (show qv.length / (bs * 8) * (bs * 8) ≤ p from by
        rw [← hTn]
        exact Nat.div_mul_le_self _ _)
      omega
  have hpred := block_predecessor_reaches
    ((RSSupportPlain.new bs qv).superblocks.getD (p / (bs * 8)) sbDefault) s
    (i - ((RSSupportPlain.new bs qv).superblocks.getD (p / (bs * 8))
      sbDefault).get_superblock_counter s)
    (p / bs % 8) (by omega) hlow hhi7
  have hfield := rs_new_field bs qv hbs hn hwf (p / (bs * 8)) s (p / bs % 8) hs hTle
    (by omega) hble0
  rw [select_block_some (RSSupportPlain.new bs qv) bs s i (plo / (bs * 8)) ls lo1
    (p / (bs * 8) + 1) ((RSSupportPlain.new bs qv).superblocks.getD (p / (bs * 8))
      sbDefault) hplo4 hls1 hgal (by omega) hlin (by omega) hgetT h8]
  rw [hpred]
  rw [hrank, hfield]
  simp only [BLOCKS_IN_SUPERBLOCK, Nat.add_sub_cancel]
  have hc1 : p / (bs * 8) * bs * 8 + p / bs % 8 * bs = p / bs * bs := by
    have h := blk_decomp bs p
    have e : p / (bs * 8) * bs * 8 = p / (bs * 8) * (bs * 8) := by ring
    omega
  have hc2 : cntTo qv s (p / (bs * 8) * (bs * 8)) +
      (cntTo qv s (p / (bs * 8) * (bs * 8) + p / bs % 8 * bs) -
        cntTo qv s (p / (bs * 8) * (bs * 8))) = cntTo qv s (p / bs * bs) := by
    rw [blk_decomp]
    have hm := cntTo_mono qv s (show p / (bs * 8) * (bs * 8) ≤ p / bs * bs from by
      have h4 := blk_decomp bs p
      omega)
    omega
  rw [hc1, hc2]

/-- C4: for every block size in {256, 512}, every quaternary sequence shorter
than `2^43`, every symbol `s < 4` and every position `i ≤ qv.len()`,
`rank_block⟨s⟩(i)` on the index built by `RSSupportPlain::new(qv)` returns the
number of occurrences of `s` in `[0, (i / B_SIZE) * B_SIZE)`, the boundary of
the block containing `i`. -/
theorem claim_C4_rank_block (bs : Nat) (qv : List Nat) (hbs : bs = 256 ∨ bs = 512)
    (hn : qv.length < 2 ^ 43) (hwf : ∀ x ∈ qv, x < 4) (s i : Nat) (hs : s < 4)
    (hi : i ≤ qv.length) :
    (RSSupportPlain.new bs qv).rank_block bs s i =
      some ((qv.take (i / bs * bs)).count s) :=
  rs_rank_block_eq bs qv hbs hn hwf s i hs hi

theorem claim_C4_witness :
    ((256 : Nat) = 256 ∨ (256 : Nat) = 512) ∧ qvScenario5.length < 2 ^ 43 ∧
    (∀ x ∈ qvScenario5, x < 4) ∧ (0 : Nat) < 4 ∧ 7 ≤ qvScenario5.length ∧
    (RSSupportPlain.new 256 qvScenario5).rank_block 256 0 7 =
      some ((qvScenario5.take (7 / 256 * 256)).count 0) :=
  ⟨Or.inl rfl, by decide, by decide, by decide, by decide,
    claim_C4_rank_block 256 qvScenario5 (Or.inl rfl) (by decide) (by decide) 0 7
      (by decide) (by decide)⟩

/-- C2: for every block size in {256, 512}, every quaternary sequence shorter
than `2^43`, every symbol `s < 4` and every `i ≥ 1`, if `p` is the position of
the `i`-th occurrence of `s` (1-indexed: `p` holds `s` and `i - 1` occurrences
precede it), then `select_block(s, i)` on the index built by
`RSSupportPlain::new(qv)` returns `(pos, rank)` with `pos = (p / B_SIZE) *
B_SIZE` the start of the block containing the occurrence and `rank` the count
of `s` in `[0, pos)`; moreover `rank_block⟨s⟩(pos)` returns that same `rank`,
`rank ≤ i - 1`, and `i - 1` is below `rank` plus the count of `s` inside the
block starting at `pos`. -/
theorem claim_C2_select_block (bs : Nat) (qv : List Nat) (hbs : bs = 256 ∨ bs = 512)
    (hn : qv.length < 2 ^ 43) (hwf : ∀ x ∈ qv, x < 4) (s i p : Nat) (hs : s < 4)
    (h1 : 1 ≤ i) (hp : p < qv.length) (hocc : qv.getD p 4 = s)
    (hcnt : (qv.take p).count s = i - 1) :
    (RSSupportPlain.new bs qv).select_block bs s i =
        some (p / bs * bs, (qv.take (p / bs * bs)).count s) ∧
      (RSSupportPlain.new bs qv).rank_block bs s (p / bs * bs) =
        some ((qv.take (p / bs * bs)).count s) ∧
      (qv.take (p / bs * bs)).count s ≤ i - 1 ∧
      i - 1 < (qv.take (p / bs * bs)).count s +
        ((qv.take (min (p / bs * bs + bs) qv.length)).count s -
          (qv.take (p / bs * bs)).count s) := by
  have hbs0 : 0 < bs := by rcases hbs with rfl | rfl <;> norm_num
  have hcnt2 : cntTo qv s p = i - 1 := hcnt
  have hsel := rs_select_block_eq bs qv hbs hn hwf s i p hs h1 hp hocc hcnt2
  have hposle : p / bs * bs ≤ p := Nat.div_mul_le_self _ _
  have hrk := rs_rank_block_eq bs qv hbs hn hwf s (p / bs * bs) hs
    (le_trans hposle (le_of_lt hp))
  have hdiv : p / bs * bs / bs * bs = p / bs * bs := by
    rw [Nat.mul_div_cancel _ hbs0]
  rw [hdiv] at hrk
  have hisucc : cntTo qv s (p + 1) = i := by
    rw [cntTo_occ_succ qv s p hp hocc]
    omega
  have hm1 := cntTo_mono qv s hposle
  refine ⟨hsel, hrk, by show cntTo qv s (p / bs * bs) ≤ i - 1; omega, ?_⟩
  show i - 1 < cntTo qv s (p / bs * bs) +
    (cntTo qv s (min (p / bs * bs + bs) qv.length) - cntTo qv s (p / bs * bs))
  have hpin : p + 1 ≤ min (p / bs * bs + bs) qv.length := by
    refine le_min ?_ hp
    have e6 := Nat.div_add_mod p bs
    have e7 : p % bs < bs := Nat.mod_lt _ (by omega)
    have e10 : p / bs * bs = bs * (p / bs) := by ring
    omega
  have hm2 := cntTo_mono qv s hpin
  have hm3 := cntTo_mono qv s (le_trans (le_trans hposle (Nat.le_succ _)) hpin)
  omega

theorem claim_C2_witness :
    ((256 : Nat) = 256 ∨ (256 : Nat) = 512) ∧ qvScenario5.length < 2 ^ 43 ∧
    (∀ x ∈ qvScenario5, x < 4) ∧ (0 : Nat) < 4 ∧ (1 : Nat) ≤ 2 ∧
    4 < qvScenario5.length ∧ qvScenario5.getD 4 4 = 0 ∧
    (qvScenario5.take 4).count 0 = 2 - 1 ∧
    ((RSSupportPlain.new 256 qvScenario5).select_block 256 0 2 =
        some (4 / 256 * 256, (qvScenario5.take (4 / 256 * 256)).count 0) ∧
      (RSSupportPlain.new 256 qvScenario5).rank_block 256 0 (4 / 256 * 256) =
        some ((qvScenario5.take (4 / 256 * 256)).count 0) ∧
      (qvScenario5.take (4 / 256 * 256)).count 0 ≤ 2 - 1 ∧
      2 - 1 < (qvScenario5.take (4 / 256 * 256)).count 0 +
        ((qvScenario5.take (min (4 / 256 * 256 + 256) qvScenario5.length)).count 0 -
          (qvScenario5.take (4 / 256 * 256)).count 0)) :=
  ⟨Or.inl rfl, by decide, by decide, by decide, by decide, by decide, by decide,
    by decide,
    claim_C2_select_block 256 qvScenario5 (Or.inl rfl) (by decide) (by decide) 0 2 4
      (by decide) (by decide) (by decide) (by decide) (by decide)⟩

/-- C10: for every block size in {256, 512}, every quaternary sequence shorter
than `2^43`, every symbol `s < 4` and every `i` with `1 ≤ i ≤ n_occs(s)`,
`select_block(s, i)` on the index built by `RSSupportPlain::new(qv)` evaluates
to `some` result: no superblock access is out of bounds and none of the
subtractions `first_sblock_id -= step`, `first_sblock_id -= 1`, `i - rank`
underflows (all such panics are modelled by `none`). -/
theorem claim_C10_select_block_total (bs : Nat) (qv : List Nat)
    (hbs : bs = 256 ∨ bs = 512) (hn : qv.length < 2 ^ 43) (hwf : ∀ x ∈ qv, x < 4)
    (s i : Nat) (hs : s < 4) (h1 : 1 ≤ i)
    (hi : i ≤ (RSSupportPlain.new bs qv).n_occs s) :
    ∃ pr, (RSSupportPlain.new bs qv).select_block bs s i = some pr := by
  have hocc := rs_new_occs bs qv hbs hn hwf s hs
  unfold RSSupportPlain.n_occs at hi
  rw [hocc] at hi
  obtain ⟨p, hp1, hp2, hp3⟩ := exists_occ qv s (i - 1) (by omega)
  exact ⟨_, rs_select_block_eq bs qv hbs hn hwf s i p hs h1 hp1 hp2 hp3⟩

theorem claim_C10_witness :
    ((256 : Nat) = 256 ∨ (256 : Nat) = 512) ∧ qvScenario5.length < 2 ^ 43 ∧
    (∀ x ∈ qvScenario5, x < 4) ∧ (1 : Nat) < 4 ∧ (1 : Nat) ≤ 2 ∧
    2 ≤ (RSSupportPlain.new 256 qvScenario5).n_occs 1 ∧
    (∃ pr, (RSSupportPlain.new 256 qvScenario5).select_block 256 1 2 = some pr) :=
  ⟨Or.inl rfl, by decide, by decide, by decide, by decide, by decide,
    claim_C10_select_block_total 256 qvScenario5 (Or.inl rfl) (by decide) (by decide)
      1 2 (by decide) (by decide) (by decide)⟩

theorem claim_C5_witness :
    1 < (DArray.new false bvScenario3).ones_inventories.n_sets ∧
    (DArray.new false bvScenario3).ones_inventories.block_inventory.get?
      (1 / BLOCK_SIZE) = some (-1) ∧
    ((-1 : Int) < 0) ∧
    (DArray.new false bvScenario3).select1 1 =
      ((DArray.new false bvScenario3).ones_inventories.overflow_positions.get?
        ((-(-1 : Int) - 1).toNat + 1 % BLOCK_SIZE)).map some :=
  ⟨by decide, by decide, by decide,
    claim_C5_sparse_block_roundtrip.1 bvScenario3 1 (-1) (by decide) (by decide)
      (by decide)⟩
